import Mathlib

set_option linter.unusedSectionVars false

set_option synthInstance.maxSize 2000

/-!
A verification development for the temporal-network event-betweenness
algorithm of `dynamics.py` (`eventBetweenness`).

Python dictionaries are modelled as insertion-ordered association lists
(`List (ν × Int)`): `dGet` is key lookup, `dSet` is `d[k] = v`
(updating in place if present, appending otherwise, as Python dicts do),
and `dSetdefault` is `d.setdefault(k, v)`.  The correction deque
(`L_diff`, appended on the right during the reverse sweep and popped on
the right during the forward sweep, i.e. LIFO) is modelled as a list
whose head is the most recently pushed entry.
-/

namespace NetPython

variable {ν : Type} [DecidableEq ν]

/-- An event `(t, i, j)`: a contact between nodes `i` and `j` at time `t`. -/
abbrev Event (ν : Type) := Int × ν × ν

/-- Python `d[k]` lookup on an insertion-ordered association list. -/
def dGet : List (ν × Int) → ν → Option Int
  | [], _ => none
  | (k', v) :: rest, k => if k' = k then some v else dGet rest k

/-- Python `d[k] = v`: update in place if the key is present, else append. -/
def dSet : List (ν × Int) → ν → Int → List (ν × Int)
  | [], k, v => [(k, v)]
  | (k', v') :: rest, k, v =>
    if k' = k then (k, v) :: rest else (k', v') :: dSet rest k v

/-- Python `d.setdefault(k, v)`: return the current value (inserting `v`
if the key is absent) together with the possibly-extended dictionary. -/
def dSetdefault (d : List (ν × Int)) (k : ν) (v : Int) : Int × List (ν × Int) :=
  match dGet d k with
  | some w => (w, d)
  | none => (v, d ++ [(k, v)])

/-- One step of the reverse sweep (Phase I of `eventBetweenness`):
read the leaving counts of both endpoints, push the per-event correction
pair onto the stack, and set both endpoints' leaving counts to
`l_i + l_j + 1`. -/
def phase1Step (st : List (ν × Int) × List (Int × Int)) (e : Event ν) :
    List (ν × Int) × List (Int × Int) :=
  let (t, i, j) := e
  let _ := t
  let (l_i, L1) := dSetdefault st.1 i 0
  let (l_j, L2) := dSetdefault L1 j 0
  let cNew := l_i + l_j + 1
  ((dSet (dSet L2 i cNew) j cNew), (cNew - l_i, cNew - l_j) :: st.2)

/-- Phase I of `eventBetweenness`: fold `phase1Step` over the reversed
event sequence, starting from an empty dictionary and an empty stack. -/
def phase1 (evsRev : List (Event ν)) : List (ν × Int) × List (Int × Int) :=
  evsRev.foldl phase1Step ([], [])

/-- The mutable state of the forward sweep: the arrival-count dictionary
`A_count`, the leaving-count dictionary `L_count`, and the optional
node-betweenness dictionary. -/
structure P2State (ν : Type) where
  A : List (ν × Int)
  L : List (ν × Int)
  nb : Option (List (ν × Int))
  deriving DecidableEq

/-- Phase II of `eventBetweenness` (the forward sweep), transcribed from
the source: for each event, read the arrival counts via `setdefault`, pop
the correction pair from the stack (an empty stack is Python's
`IndexError`), subtract it from the leaving counts (a missing key is
Python's `KeyError`), optionally accumulate node betweenness, emit
`(t, a_i*l_j + a_j*l_i + a_i + a_j + l_i + l_j)`, and set both arrival
counts to `a_i + a_j + 1`.  Returns the emitted pairs, the final state
and the unconsumed remainder of the stack. -/
def phase2 (ipe : Bool) :
    List (Event ν) → List (Int × Int) → P2State ν →
    Except String (List (Int × Int) × P2State ν × List (Int × Int))
  | [], stack, st => .ok ([], st, stack)
  | (t, i, j) :: evs, stack, st =>
    match stack with
    | [] => .error "IndexError"
    | (iUpd, jUpd) :: stack' =>
      let (a_i, A1) := dSetdefault st.A i 0
      let (a_j, A2) := dSetdefault A1 j 0
      match dGet st.L i with
      | none => .error "KeyError"
      | some li0 =>
        let L1 := dSet st.L i (li0 - iUpd)
        match dGet L1 j with
        | none => .error "KeyError"
        | some lj0 =>
          let L2 := dSet L1 j (lj0 - jUpd)
          match dGet L2 i, dGet L2 j with
          | some l_i, some l_j =>
            let nb' :=
              match st.nb with
              | none => none
              | some nbd =>
                let (nbi0, nb1) := dSetdefault nbd i 0
                let (nbj0, nb2) := dSetdefault nb1 j 0
                let nb_i := nbi0 + a_j * l_i + l_i
                let nb_j := nbj0 + a_i * l_j + l_j
                let nb_i := if ipe then nb_i + a_j + l_j else nb_i
                let nb_j := if ipe then nb_j + a_i + l_i else nb_j
                some (dSet (dSet nb2 i nb_i) j nb_j)
            let cNew := a_i + a_j + 1
            let A3 := dSet (dSet A2 i cNew) j cNew
            match phase2 ipe evs stack' ⟨A3, L2, nb'⟩ with
            | .error e => .error e
            | .ok (outs, stF, stackF) =>
              .ok ((t, a_i * l_j + a_j * l_i + a_i + a_j + l_i + l_j) :: outs,
                   stF, stackF)
          | _, _ => .error "KeyError"

/-- `eventBetweenness events nb0 includePathEnds`: the whole algorithm
with `events_reversed` omitted (so the reversed view is
`events.reverse`).  Returns the emitted `(time, betweenness)` pairs and
the final node-betweenness dictionary. -/
def eventBetweenness (events : List (Event ν)) (nb0 : Option (List (ν × Int)))
    (includePathEnds : Bool) :
    Except String (List (Int × Int) × Option (List (ν × Int))) :=
  let p := phase1 events.reverse
  match phase2 includePathEnds events p.2 ⟨[], p.1, nb0⟩ with
  | .error e => .error e
  | .ok (outs, stF, _) => .ok (outs, stF.nb)

/-- The keys of a dictionary, in insertion order. -/
def dKeys (d : List (ν × Int)) : List ν := d.map Prod.fst

/-- The running sum of all values of a dictionary. -/
def sumValues (d : List (ν × Int)) : Int := (d.map Prod.snd).sum

/-- All values of a dictionary are non-negative. -/
def dNonneg (d : List (ν × Int)) : Prop := ∀ p ∈ d, 0 ≤ p.2

/-- A per-event record of the forward sweep: the event together with the
arrival counts read before the event and the leaving counts read after
the correction pair was subtracted. -/
structure TraceRec (ν : Type) where
  t : Int
  i : ν
  j : ν
  a_i : Int
  a_j : Int
  l_i : Int
  l_j : Int
  deriving DecidableEq

/-- The `(time, betweenness)` pair emitted for one trace record:
`(t, a_i*l_j + a_j*l_i + a_i + a_j + l_i + l_j)`. -/
def outOf (r : TraceRec ν) : Int × Int :=
  (r.t, r.a_i * r.l_j + r.a_j * r.l_i + r.a_i + r.a_j + r.l_i + r.l_j)

/-- The node-betweenness update performed while processing one event:
`nb[i] += a_j*l_i + l_i` and `nb[j] += a_i*l_j + l_j`, plus the
path-end contributions `a_j + l_j` (to `i`) and `a_i + l_i` (to `j`)
when `ipe` is set; as in the source, both `setdefault` reads happen
before either assignment, and `nb[j]` is assigned last. -/
def nbStep (ipe : Bool) (r : TraceRec ν) (nbd : List (ν × Int)) :
    List (ν × Int) :=
  let (nbi0, nb1) := dSetdefault nbd r.i 0
  let (nbj0, nb2) := dSetdefault nb1 r.j 0
  let nb_i := nbi0 + r.a_j * r.l_i + r.l_i
  let nb_j := nbj0 + r.a_i * r.l_j + r.l_j
  let nb_i := if ipe then nb_i + r.a_j + r.l_j else nb_i
  let nb_j := if ipe then nb_j + r.a_i + r.l_i else nb_j
  dSet (dSet nb2 r.i nb_i) r.j nb_j

/-- The node-betweenness dictionary after processing a whole trace. -/
def nbEvolve (ipe : Bool) (tr : List (TraceRec ν)) (nbd : List (ν × Int)) :
    List (ν × Int) :=
  tr.foldl (fun d r => nbStep ipe r d) nbd

/-- Trace-instrumented forward sweep: identical control flow to
`phase2`, but it records the per-event `(t, i, j, a_i, a_j, l_i, l_j)`
values instead of producing the emitted pairs and the node-betweenness
dictionary (those are recovered by `outOf` and `nbEvolve`). -/
def phase2T :
    List (Event ν) → List (Int × Int) → List (ν × Int) → List (ν × Int) →
    Except String
      (List (TraceRec ν) × List (ν × Int) × List (ν × Int) × List (Int × Int))
  | [], stack, A, L => .ok ([], A, L, stack)
  | (t, i, j) :: evs, stack, A, L =>
    match stack with
    | [] => .error "IndexError"
    | (iUpd, jUpd) :: stack' =>
      let (a_i, A1) := dSetdefault A i 0
      let (a_j, A2) := dSetdefault A1 j 0
      match dGet L i with
      | none => .error "KeyError"
      | some li0 =>
        let L1 := dSet L i (li0 - iUpd)
        match dGet L1 j with
        | none => .error "KeyError"
        | some lj0 =>
          let L2 := dSet L1 j (lj0 - jUpd)
          match dGet L2 i, dGet L2 j with
          | some l_i, some l_j =>
            let cNew := a_i + a_j + 1
            let A3 := dSet (dSet A2 i cNew) j cNew
            match phase2T evs stack' A3 L2 with
            | .error e => .error e
            | .ok (tr, AF, LF, stackF) =>
              .ok (⟨t, i, j, a_i, a_j, l_i, l_j⟩ :: tr, AF, LF, stackF)
          | _, _ => .error "KeyError"

/-- Sum, over a trace, of the through-path terms `a_i*l_j + a_j*l_i`. -/
def throughSum (tr : List (TraceRec ν)) : Int :=
  (tr.map (fun r => r.a_i * r.l_j + r.a_j * r.l_i)).sum

/-- Sum, over a trace, of the full per-event node-betweenness credit
`a_i*l_j + a_j*l_i + l_i + l_j`. -/
def throughEndsSum (tr : List (TraceRec ν)) : Int :=
  (tr.map (fun r => r.a_i * r.l_j + r.a_j * r.l_i + r.l_i + r.l_j)).sum

/-- The event sequence is sorted non-decreasingly by time. -/
def sortedByTime : List (Event ν) → Bool
  | [] => true
  | [_] => true
  | e :: f :: rest => decide (e.1 ≤ f.1) && sortedByTime (f :: rest)

/-- Every event has two distinct endpoints. -/
def noSelfLoops (evs : List (Event ν)) : Prop := ∀ e ∈ evs, e.2.1 ≠ e.2.2

/-- Swap the two endpoints of an event. -/
def swapEvent (e : Event ν) : Event ν := (e.1, e.2.2, e.2.1)

/-- Swap the two components of a correction pair. -/
def swapPair (p : Int × Int) : Int × Int := (p.2, p.1)

/-- Swap the roles of the two endpoints in a trace record. -/
def swapRec (r : TraceRec ν) : TraceRec ν :=
  ⟨r.t, r.j, r.i, r.a_j, r.a_i, r.l_j, r.l_i⟩

/-- Two dictionaries agree on every key when looked up with default 0. -/
def EquivZ (d d' : List (ν × Int)) : Prop :=
  ∀ k, (dGet d k).getD 0 = (dGet d' k).getD 0

/-- The keys after one node-betweenness step, as a function of the
previous key list alone. -/
def keysAfter (ks : List ν) (i j : ν) : List ν :=
  let k1 := if i ∈ ks then ks else ks ++ [i]
  if j ∈ k1 then k1 else k1 ++ [j]

/-- Two dictionaries give the same lookup result on every key. -/
def EquivO (d d' : List (ν × Int)) : Prop := ∀ k, dGet d k = dGet d' k

instance exceptDecidableEq {ε α : Type} [DecidableEq ε] [DecidableEq α] :
    DecidableEq (Except ε α)
  | .error e, .error e' =>
    if h : e = e' then isTrue (by rw [h])
    else isFalse (fun hc => h (by injection hc))
  | .error _, .ok _ => isFalse (fun hc => Except.noConfusion hc)
  | .ok _, .error _ => isFalse (fun hc => Except.noConfusion hc)
  | .ok a, .ok a' =>
    if h : a = a' then isTrue (by rw [h])
    else isFalse (fun hc => h (by injection hc))

instance noSelfLoopsDecidable (evs : List (Event ν)) :
    Decidable (noSelfLoops evs) :=
  inferInstanceAs (Decidable (∀ e ∈ evs, e.2.1 ≠ e.2.2))

@[simp] theorem dKeys_nil : dKeys ([] : List (ν × Int)) = [] := rfl

@[simp] theorem dKeys_cons (p : ν × Int) (d : List (ν × Int)) :
    dKeys (p :: d) = p.1 :: dKeys d := rfl

@[simp] theorem dKeys_append (d d' : List (ν × Int)) :
    dKeys (d ++ d') = dKeys d ++ dKeys d' := by
  simp [dKeys]

@[simp] theorem sumValues_nil : sumValues ([] : List (ν × Int)) = 0 := rfl

@[simp] theorem sumValues_cons (p : ν × Int) (d : List (ν × Int)) :
    sumValues (p :: d) = p.2 + sumValues d := by
  simp [sumValues]

@[simp] theorem sumValues_append (d d' : List (ν × Int)) :
    sumValues (d ++ d') = sumValues d + sumValues d' := by
  simp [sumValues]

theorem dGet_dSet (d : List (ν × Int)) (k k' : ν) (v : Int) :
    dGet (dSet d k v) k' = if k = k' then some v else dGet d k' := by
  induction d with
  | nil => simp [dSet, dGet]
  | cons p rest ih =>
    obtain ⟨k₀, v₀⟩ := p
    by_cases h : k₀ = k
    · subst h
      simp only [dSet, if_pos rfl, dGet]
      by_cases h' : k₀ = k' <;> simp [h']
    · simp only [dSet, if_neg h, dGet, ih]
      by_cases h' : k₀ = k' <;> by_cases h'' : k = k'
      · exact absurd (h'.trans h''.symm) h
      · simp [h', h'']
      · simp [h', h'']
      · simp [h', h'']

theorem dGet_append_of_none (d d' : List (ν × Int)) (k : ν) (h : dGet d k = none) :
    dGet (d ++ d') k = dGet d' k := by
  induction d with
  | nil => simp
  | cons p rest ih =>
    obtain ⟨k₀, v₀⟩ := p
    by_cases hk : k₀ = k
    · simp [dGet, hk] at h
    · simp only [dGet, if_neg hk] at h
      simpa [dGet, if_neg hk] using ih h

theorem dGet_append_of_some (d d' : List (ν × Int)) (k : ν) (w : Int)
    (h : dGet d k = some w) : dGet (d ++ d') k = some w := by
  induction d with
  | nil => simp [dGet] at h
  | cons p rest ih =>
    obtain ⟨k₀, v₀⟩ := p
    by_cases hk : k₀ = k
    · simp only [dGet, if_pos hk] at h
      simp [dGet, if_pos hk, h]
    · simp only [dGet, if_neg hk] at h
      simpa [dGet, if_neg hk] using ih h

theorem dSetdefault_fst (d : List (ν × Int)) (k : ν) (v : Int) :
    (dSetdefault d k v).1 = (dGet d k).getD v := by
  unfold dSetdefault
  cases h : dGet d k <;> simp

theorem dGet_dSetdefault (d : List (ν × Int)) (k k' : ν) (v : Int) :
    dGet (dSetdefault d k v).2 k' =
      if k = k' then some ((dGet d k).getD v) else dGet d k' := by
  unfold dSetdefault
  cases h : dGet d k with
  | some w =>
    by_cases hk : k = k'
    · subst hk
      simp [h]
    · simp [hk]
  | none =>
    by_cases hk : k = k'
    · subst hk
      simp [dGet_append_of_none _ _ _ h, dGet, h]
    · simp only [if_neg hk]
      cases h' : dGet d k' with
      | some w => simp [dGet_append_of_some _ _ _ _ h']
      | none =>
        rw [dGet_append_of_none _ _ _ h']
        simp [dGet, hk]

theorem dGet_eq_none_iff (d : List (ν × Int)) (k : ν) :
    dGet d k = none ↔ k ∉ dKeys d := by
  induction d with
  | nil => simp [dGet, dKeys]
  | cons p rest ih =>
    obtain ⟨k₀, v₀⟩ := p
    by_cases hk : k₀ = k
    · subst hk
      simp [dGet, dKeys]
    · have hne : ¬ k = k₀ := fun h => hk h.symm
      simp only [dGet, if_neg hk, dKeys_cons, List.mem_cons]
      rw [ih]
      simp [dKeys, hne]

theorem dKeys_dSet_mem (d : List (ν × Int)) (k : ν) (v : Int) (h : k ∈ dKeys d) :
    dKeys (dSet d k v) = dKeys d := by
  induction d with
  | nil => simp [dKeys] at h
  | cons p rest ih =>
    obtain ⟨k₀, v₀⟩ := p
    by_cases hk : k₀ = k
    · subst hk
      simp [dSet, dKeys]
    · simp only [dKeys_cons, List.mem_cons] at h
      rcases h with h | h
      · exact absurd h.symm hk
      · simp only [dSet, if_neg hk, dKeys_cons, ih h]

theorem dKeys_dSet_not_mem (d : List (ν × Int)) (k : ν) (v : Int)
    (h : k ∉ dKeys d) : dKeys (dSet d k v) = dKeys d ++ [k] := by
  induction d with
  | nil => simp [dSet, dKeys]
  | cons p rest ih =>
    obtain ⟨k₀, v₀⟩ := p
    simp only [dKeys_cons, List.mem_cons] at h
    push_neg at h
    simp only [dSet, if_neg (fun h' : k₀ = k => h.1 h'.symm), dKeys_cons,
      ih h.2, List.cons_append]

theorem dKeys_dSetdefault (d : List (ν × Int)) (k : ν) (v : Int) :
    dKeys (dSetdefault d k v).2 =
      if k ∈ dKeys d then dKeys d else dKeys d ++ [k] := by
  unfold dSetdefault
  cases h : dGet d k with
  | some w =>
    have : k ∈ dKeys d := by
      by_contra hmem
      rw [(dGet_eq_none_iff d k).mpr hmem] at h
      exact Option.noConfusion h
    simp [this]
  | none =>
    have hmem : k ∉ dKeys d := (dGet_eq_none_iff d k).mp h
    simp only [dKeys] at hmem ⊢
    simp [hmem]

theorem dGet_getD_nonneg (d : List (ν × Int)) (k : ν) (h : dNonneg d) :
    0 ≤ (dGet d k).getD 0 := by
  induction d with
  | nil => simp [dGet]
  | cons p rest ih =>
    obtain ⟨k₀, v₀⟩ := p
    have h0 : 0 ≤ v₀ := h (k₀, v₀) (List.mem_cons_self _ _)
    have hrest : dNonneg rest := fun q hq => h q (List.mem_cons_of_mem _ hq)
    by_cases hk : k₀ = k
    · simpa [dGet, hk] using h0
    · simpa [dGet, hk] using ih hrest

theorem dGet_some_nonneg (d : List (ν × Int)) (k : ν) (v : Int)
    (h : dNonneg d) (hget : dGet d k = some v) : 0 ≤ v := by
  have := dGet_getD_nonneg d k h
  rw [hget] at this
  simpa using this

theorem dNonneg_dSet (d : List (ν × Int)) (k : ν) (v : Int)
    (h : dNonneg d) (hv : 0 ≤ v) : dNonneg (dSet d k v) := by
  induction d with
  | nil =>
    intro p hp
    simp only [dSet, List.mem_singleton] at hp
    simpa [hp]
  | cons q rest ih =>
    obtain ⟨k₀, v₀⟩ := q
    intro p hp
    by_cases hk : k₀ = k
    · simp only [dSet, if_pos hk, List.mem_cons] at hp
      rcases hp with hp | hp
      · simpa [hp]
      · exact h p (List.mem_cons_of_mem _ hp)
    · simp only [dSet, if_neg hk, List.mem_cons] at hp
      rcases hp with hp | hp
      · exact hp ▸ h _ (List.mem_cons_self _ _)
      · exact ih (fun q hq => h q (List.mem_cons_of_mem _ hq)) p hp

theorem dNonneg_dSetdefault (d : List (ν × Int)) (k : ν) (v : Int)
    (h : dNonneg d) (hv : 0 ≤ v) : dNonneg (dSetdefault d k v).2 := by
  unfold dSetdefault
  cases hget : dGet d k with
  | some w => simpa using h
  | none =>
    intro p hp
    simp only [List.mem_append, List.mem_singleton] at hp
    rcases hp with hp | hp
    · exact h p hp
    · simpa [hp]

theorem sumValues_dSet_present (d : List (ν × Int)) (k : ν) (v w : Int)
    (h : dGet d k = some w) : sumValues (dSet d k v) = sumValues d - w + v := by
  induction d with
  | nil => simp [dGet] at h
  | cons p rest ih =>
    obtain ⟨k₀, v₀⟩ := p
    by_cases hk : k₀ = k
    · simp only [dGet, if_pos hk] at h
      obtain rfl : v₀ = w := by injection h
      simp only [dSet, if_pos hk, sumValues_cons]
      omega
    · simp only [dGet, if_neg hk] at h
      simp only [dSet, if_neg hk, sumValues_cons]
      have := ih h
      omega

theorem sumValues_dSetdefault_zero (d : List (ν × Int)) (k : ν) :
    sumValues (dSetdefault d k 0).2 = sumValues d := by
  unfold dSetdefault
  cases hget : dGet d k with
  | some w => simp
  | none => simp [sumValues]

@[simp] theorem nbEvolve_nil (ipe : Bool) (d : List (ν × Int)) :
    nbEvolve ipe [] d = d := rfl

@[simp] theorem nbEvolve_cons (ipe : Bool) (r : TraceRec ν)
    (tr : List (TraceRec ν)) (d : List (ν × Int)) :
    nbEvolve ipe (r :: tr) d = nbEvolve ipe tr (nbStep ipe r d) := rfl

/-- The faithful forward sweep is the trace-instrumented one followed by
`outOf` (for the emitted pairs) and `nbEvolve` (for node betweenness). -/
theorem phase2_eq_phase2T (ipe : Bool) (evs : List (Event ν))
    (stack : List (Int × Int)) (A L : List (ν × Int))
    (nb : Option (List (ν × Int))) :
    phase2 ipe evs stack ⟨A, L, nb⟩ =
      (phase2T evs stack A L).map (fun r =>
        (r.1.map outOf, ⟨r.2.1, r.2.2.1, nb.map (nbEvolve ipe r.1)⟩,
         r.2.2.2)) := by
  induction evs generalizing stack A L nb with
  | nil => cases nb <;> rfl
  | cons e evs ih =>
    obtain ⟨t, i, j⟩ := e
    cases stack with
    | nil => rfl
    | cons d stack' =>
      obtain ⟨iUpd, jUpd⟩ := d
      rcases h1 : dSetdefault A i 0 with ⟨a_i, A1⟩
      rcases h2 : dSetdefault A1 j 0 with ⟨a_j, A2⟩
      cases hLi : dGet L i with
      | none => simp only [phase2, phase2T, h1, h2, hLi, Except.map]
      | some li0 =>
        cases hLj : dGet (dSet L i (li0 - iUpd)) j with
        | none => simp only [phase2, phase2T, h1, h2, hLi, hLj, Except.map]
        | some lj0 =>
          cases hl2i : dGet (dSet (dSet L i (li0 - iUpd)) j (lj0 - jUpd)) i with
          | none =>
            cases hl2j :
                dGet (dSet (dSet L i (li0 - iUpd)) j (lj0 - jUpd)) j <;>
              simp only [phase2, phase2T, h1, h2, hLi, hLj, hl2i, hl2j,
                Except.map]
          | some l_i =>
            cases hl2j :
                dGet (dSet (dSet L i (li0 - iUpd)) j (lj0 - jUpd)) j with
            | none =>
              simp only [phase2, phase2T, h1, h2, hLi, hLj, hl2i, hl2j,
                Except.map]
            | some l_j =>
              cases hrec : phase2T evs stack'
                  (dSet (dSet A2 i (a_i + a_j + 1)) j (a_i + a_j + 1))
                  (dSet (dSet L i (li0 - iUpd)) j (lj0 - jUpd)) with
              | error e =>
                simp only [phase2, phase2T, h1, h2, hLi, hLj, hl2i, hl2j,
                  Except.map, ih, hrec]
              | ok r =>
                obtain ⟨tr, AF, LF, stackF⟩ := r
                cases nb with
                | none =>
                  simp only [phase2, phase2T, h1, h2, hLi, hLj, hl2i, hl2j,
                    Except.map, ih, hrec, Option.map]
                  simp [outOf]
                | some nbd =>
                  simp only [phase2, phase2T, h1, h2, hLi, hLj, hl2i, hl2j,
                    Except.map, ih, hrec, Option.map, nbEvolve_cons]
                  simp [outOf, nbStep]

/-- Running the instrumented sweep over an appended sequence is running
it over the first part, then over the second from the resulting
dictionaries and stack. -/
theorem phase2T_append (xs ys : List (Event ν)) (stack : List (Int × Int))
    (A L : List (ν × Int)) :
    phase2T (xs ++ ys) stack A L =
      (phase2T xs stack A L).bind (fun r =>
        (phase2T ys r.2.2.2 r.2.1 r.2.2.1).map (fun s =>
          (r.1 ++ s.1, s.2))) := by
  induction xs generalizing stack A L with
  | nil =>
    simp only [List.nil_append, phase2T, Except.bind]
    cases h : phase2T ys stack A L with
    | error e => rfl
    | ok r => rfl
  | cons e xs ih =>
    obtain ⟨t, i, j⟩ := e
    cases stack with
    | nil => rfl
    | cons d stack' =>
      obtain ⟨iUpd, jUpd⟩ := d
      rcases h1 : dSetdefault A i 0 with ⟨a_i, A1⟩
      rcases h2 : dSetdefault A1 j 0 with ⟨a_j, A2⟩
      cases hLi : dGet L i with
      | none => simp only [List.cons_append, phase2T, h1, h2, hLi, Except.bind]
      | some li0 =>
        cases hLj : dGet (dSet L i (li0 - iUpd)) j with
        | none =>
          simp only [List.cons_append, phase2T, h1, h2, hLi, hLj, Except.bind]
        | some lj0 =>
          cases hl2i : dGet (dSet (dSet L i (li0 - iUpd)) j (lj0 - jUpd)) i with
          | none =>
            cases hl2j :
                dGet (dSet (dSet L i (li0 - iUpd)) j (lj0 - jUpd)) j <;>
              simp only [List.cons_append, phase2T, h1, h2, hLi, hLj, hl2i,
                hl2j, Except.bind]
          | some l_i =>
            cases hl2j :
                dGet (dSet (dSet L i (li0 - iUpd)) j (lj0 - jUpd)) j with
            | none =>
              simp only [List.cons_append, phase2T, h1, h2, hLi, hLj, hl2i,
                hl2j, Except.bind]
            | some l_j =>
              simp only [List.cons_append, phase2T, h1, h2, hLi, hLj, hl2i,
                hl2j, List.append_eq, ih]
              cases hx : phase2T xs stack'
                  (dSet (dSet A2 i (a_i + a_j + 1)) j (a_i + a_j + 1))
                  (dSet (dSet L i (li0 - iUpd)) j (lj0 - jUpd)) with
              | error e => simp [Except.bind]
              | ok r =>
                simp only [Except.bind]
                cases hy : phase2T ys r.2.2.2 r.2.1 r.2.2.1 with
                | error e => simp [Except.map]
                | ok s =>
                  obtain ⟨tr2, AF2, LF2, stk2⟩ := r
                  simp only [Except.map]
                  rfl

/-- A successful instrumented sweep records one trace entry per event,
in order. -/
theorem phase2T_events (evs : List (Event ν)) (stack : List (Int × Int))
    (A L : List (ν × Int)) (tr : List (TraceRec ν)) (AF LF : List (ν × Int))
    (stkF : List (Int × Int))
    (h : phase2T evs stack A L = .ok (tr, AF, LF, stkF)) :
    tr.map (fun r => ((r.t, r.i, r.j) : Event ν)) = evs := by
  induction evs generalizing stack A L tr AF LF stkF with
  | nil =>
    simp only [phase2T] at h
    injection h with h'
    injection h' with ha hb
    subst ha
    rfl
  | cons e evs ih =>
    obtain ⟨t, i, j⟩ := e
    cases stack with
    | nil => exact absurd h (by simp [phase2T])
    | cons d stack' =>
      obtain ⟨iUpd, jUpd⟩ := d
      rcases h1 : dSetdefault A i 0 with ⟨a_i, A1⟩
      rcases h2 : dSetdefault A1 j 0 with ⟨a_j, A2⟩
      cases hLi : dGet L i with
      | none =>
        simp only [phase2T, h1, h2, hLi] at h
        exact absurd h (by simp)
      | some li0 =>
        cases hLj : dGet (dSet L i (li0 - iUpd)) j with
        | none =>
          simp only [phase2T, h1, h2, hLi, hLj] at h
          exact absurd h (by simp)
        | some lj0 =>
          cases hl2i : dGet (dSet (dSet L i (li0 - iUpd)) j (lj0 - jUpd)) i with
          | none =>
            cases hl2j :
                dGet (dSet (dSet L i (li0 - iUpd)) j (lj0 - jUpd)) j <;>
              · simp only [phase2T, h1, h2, hLi, hLj, hl2i, hl2j] at h
                exact absurd h (by simp)
          | some l_i =>
            cases hl2j :
                dGet (dSet (dSet L i (li0 - iUpd)) j (lj0 - jUpd)) j with
            | none =>
              simp only [phase2T, h1, h2, hLi, hLj, hl2i, hl2j] at h
              exact absurd h (by simp)
            | some l_j =>
              simp only [phase2T, h1, h2, hLi, hLj, hl2i, hl2j] at h
              cases hrec : phase2T evs stack'
                  (dSet (dSet A2 i (a_i + a_j + 1)) j (a_i + a_j + 1))
                  (dSet (dSet L i (li0 - iUpd)) j (lj0 - jUpd)) with
              | error e =>
                rw [hrec] at h
                exact absurd h (by simp)
              | ok r =>
                rw [hrec] at h
                obtain ⟨tr2, AF2, LF2, stkF2⟩ := r
                injection h with h'
                injection h' with ha hb
                subst ha
                simpa using ih _ _ _ _ _ _ _ hrec

/-- A successful forward sweep emits exactly one pair per event. -/
theorem phase2_ok_length (ipe : Bool) (evs : List (Event ν))
    (stack : List (Int × Int)) (A L : List (ν × Int))
    (nb : Option (List (ν × Int)))
    (outs : List (Int × Int)) (stF : P2State ν) (stkF : List (Int × Int))
    (h : phase2 ipe evs stack ⟨A, L, nb⟩ = .ok (outs, stF, stkF)) :
    outs.length = evs.length := by
  rw [phase2_eq_phase2T] at h
  cases hT : phase2T evs stack A L with
  | error e => rw [hT] at h; exact absurd h (by simp [Except.map])
  | ok r =>
    rw [hT] at h
    obtain ⟨tr, AF, LF, stkF'⟩ := r
    simp only [Except.map] at h
    injection h with h'
    injection h' with ha hb
    subst ha
    have := phase2T_events evs stack A L tr AF LF stkF' hT
    calc (tr.map outOf).length = tr.length := List.length_map _ _
    _ = (tr.map (fun r => ((r.t, r.i, r.j) : Event ν))).length :=
        (List.length_map _ _).symm
    _ = evs.length := by rw [this]

theorem dGet_dSet_self (d : List (ν × Int)) (k : ν) (v : Int) :
    dGet (dSet d k v) k = some v := by
  rw [dGet_dSet]
  simp

theorem dGet_dSet_ne_none (d : List (ν × Int)) (k k' : ν) (v : Int)
    (h : dGet d k ≠ none) : dGet (dSet d k' v) k ≠ none := by
  rw [dGet_dSet]
  by_cases hk : k' = k <;> simp [hk, h]

theorem dGet_dSetdefault_ne_none (d : List (ν × Int)) (k k' : ν) (v : Int)
    (h : dGet d k ≠ none) : dGet (dSetdefault d k' v).2 k ≠ none := by
  rw [dGet_dSetdefault]
  by_cases hk : k' = k <;> simp [hk, h]

/-- Each reverse-sweep step pushes exactly one correction pair. -/
theorem phase1_stack_length (xs : List (Event ν)) (L0 : List (ν × Int))
    (stk0 : List (Int × Int)) :
    (xs.foldl phase1Step (L0, stk0)).2.length = xs.length + stk0.length := by
  induction xs generalizing L0 stk0 with
  | nil => simp
  | cons e xs ih =>
    obtain ⟨t, i, j⟩ := e
    rw [List.foldl_cons]
    rcases h1 : dSetdefault L0 i 0 with ⟨l_i, L1⟩
    rcases h2 : dSetdefault L1 j 0 with ⟨l_j, L2⟩
    have hstep : phase1Step (L0, stk0) (t, i, j) =
        ((dSet (dSet L2 i (l_i + l_j + 1)) j (l_i + l_j + 1)),
         (l_i + l_j + 1 - l_i, l_i + l_j + 1 - l_j) :: stk0) := by
      simp [phase1Step, h1, h2]
    rw [hstep, ih]
    simp only [List.length_cons]
    omega

/-- Keys present in the leaving-count dictionary stay present through
the reverse sweep. -/
theorem phase1_keys_mono (xs : List (Event ν)) (L0 : List (ν × Int))
    (stk0 : List (Int × Int)) (k : ν) (h : dGet L0 k ≠ none) :
    dGet (xs.foldl phase1Step (L0, stk0)).1 k ≠ none := by
  induction xs generalizing L0 stk0 with
  | nil => simpa
  | cons e xs ih =>
    obtain ⟨t, i, j⟩ := e
    rw [List.foldl_cons]
    rcases h1 : dSetdefault L0 i 0 with ⟨l_i, L1⟩
    rcases h2 : dSetdefault L1 j 0 with ⟨l_j, L2⟩
    have hstep : phase1Step (L0, stk0) (t, i, j) =
        ((dSet (dSet L2 i (l_i + l_j + 1)) j (l_i + l_j + 1)),
         (l_i + l_j + 1 - l_i, l_i + l_j + 1 - l_j) :: stk0) := by
      simp [phase1Step, h1, h2]
    rw [hstep]
    apply ih
    apply dGet_dSet_ne_none
    apply dGet_dSet_ne_none
    have hk1 : dGet L1 k ≠ none := by
      have := dGet_dSetdefault_ne_none L0 k i 0 h
      rwa [h1] at this
    have := dGet_dSetdefault_ne_none L1 k j 0 hk1
    rwa [h2] at this

/-- After the reverse sweep, every node touched by an event of the
processed sequence is a key of the leaving-count dictionary. -/
theorem phase1_keys (xs : List (Event ν)) (L0 : List (ν × Int))
    (stk0 : List (Int × Int)) :
    ∀ e ∈ xs, dGet (xs.foldl phase1Step (L0, stk0)).1 e.2.1 ≠ none ∧
      dGet (xs.foldl phase1Step (L0, stk0)).1 e.2.2 ≠ none := by
  induction xs generalizing L0 stk0 with
  | nil => intro e he; cases he
  | cons f xs ih =>
    obtain ⟨t, i, j⟩ := f
    intro e he
    rw [List.foldl_cons]
    rcases List.mem_cons.mp he with rfl | he'
    · rcases h1 : dSetdefault L0 i 0 with ⟨l_i, L1⟩
      rcases h2 : dSetdefault L1 j 0 with ⟨l_j, L2⟩
      have hstep : phase1Step (L0, stk0) (t, i, j) =
          ((dSet (dSet L2 i (l_i + l_j + 1)) j (l_i + l_j + 1)),
           (l_i + l_j + 1 - l_i, l_i + l_j + 1 - l_j) :: stk0) := by
        simp [phase1Step, h1, h2]
      rw [hstep]
      constructor
      · apply phase1_keys_mono
        apply dGet_dSet_ne_none
        rw [dGet_dSet_self]
        simp
      · apply phase1_keys_mono
        rw [dGet_dSet_self]
        simp
    · exact ih _ _ e he'

/-- The forward sweep cannot fault when every node of the remaining
events is a key of the leaving-count dictionary and the stack has at
least one entry per remaining event. -/
theorem phase2T_total (evs : List (Event ν)) (stack : List (Int × Int))
    (A L : List (ν × Int))
    (hkeys : ∀ e ∈ evs, dGet L e.2.1 ≠ none ∧ dGet L e.2.2 ≠ none)
    (hlen : evs.length ≤ stack.length) :
    ∃ r, phase2T evs stack A L = .ok r := by
  induction evs generalizing stack A L with
  | nil => exact ⟨_, rfl⟩
  | cons e evs ih =>
    obtain ⟨t, i, j⟩ := e
    cases stack with
    | nil => simp at hlen
    | cons d stack' =>
      obtain ⟨iUpd, jUpd⟩ := d
      rcases h1 : dSetdefault A i 0 with ⟨a_i, A1⟩
      rcases h2 : dSetdefault A1 j 0 with ⟨a_j, A2⟩
      obtain ⟨hki, hkj⟩ := hkeys (t, i, j) (List.mem_cons_self _ _)
      cases hLi : dGet L i with
      | none => exact absurd hLi hki
      | some li0 =>
        cases hLj : dGet (dSet L i (li0 - iUpd)) j with
        | none => exact absurd hLj (dGet_dSet_ne_none _ _ _ _ hkj)
        | some lj0 =>
          cases hl2i : dGet (dSet (dSet L i (li0 - iUpd)) j (lj0 - jUpd)) i with
          | none =>
            exact absurd hl2i
              (dGet_dSet_ne_none _ _ _ _ (by rw [dGet_dSet_self]; simp))
          | some l_i =>
            cases hl2j :
                dGet (dSet (dSet L i (li0 - iUpd)) j (lj0 - jUpd)) j with
            | none => exact absurd hl2j (by rw [dGet_dSet_self]; simp)
            | some l_j =>
              have hkeys' : ∀ e ∈ evs,
                  dGet (dSet (dSet L i (li0 - iUpd)) j (lj0 - jUpd)) e.2.1 ≠
                    none ∧
                  dGet (dSet (dSet L i (li0 - iUpd)) j (lj0 - jUpd)) e.2.2 ≠
                    none := by
                intro f hf
                obtain ⟨hf1, hf2⟩ := hkeys f (List.mem_cons_of_mem _ hf)
                exact ⟨dGet_dSet_ne_none _ _ _ _ (dGet_dSet_ne_none _ _ _ _ hf1),
                  dGet_dSet_ne_none _ _ _ _ (dGet_dSet_ne_none _ _ _ _ hf2)⟩
              have hlen' : evs.length ≤ stack'.length := by
                simp only [List.length_cons] at hlen
                omega
              obtain ⟨r, hr⟩ := ih stack'
                (dSet (dSet A2 i (a_i + a_j + 1)) j (a_i + a_j + 1))
                (dSet (dSet L i (li0 - iUpd)) j (lj0 - jUpd)) hkeys' hlen'
              obtain ⟨tr2, AF2, LF2, stk2⟩ := r
              refine ⟨(⟨t, i, j, a_i, a_j, l_i, l_j⟩ :: tr2, AF2, LF2, stk2), ?_⟩
              simp only [phase2T, h1, h2, hLi, hLj, hl2i, hl2j, hr]

theorem getDz_dSetdefault_zero (d : List (ν × Int)) (k k' : ν) :
    (dGet (dSetdefault d k 0).2 k').getD 0 = (dGet d k').getD 0 := by
  rw [dGet_dSetdefault]
  by_cases hk : k = k'
  · subst hk
    simp
  · simp [hk]

/-- The reverse sweep keeps all leaving counts non-negative. -/
theorem phase1_nonneg (xs : List (Event ν)) (L0 : List (ν × Int))
    (stk0 : List (Int × Int)) (h : dNonneg L0) :
    dNonneg (xs.foldl phase1Step (L0, stk0)).1 := by
  induction xs generalizing L0 stk0 with
  | nil => simpa
  | cons e xs ih =>
    obtain ⟨t, i, j⟩ := e
    rw [List.foldl_cons]
    rcases h1 : dSetdefault L0 i 0 with ⟨l_i, L1⟩
    rcases h2 : dSetdefault L1 j 0 with ⟨l_j, L2⟩
    have hstep : phase1Step (L0, stk0) (t, i, j) =
        ((dSet (dSet L2 i (l_i + l_j + 1)) j (l_i + l_j + 1)),
         (l_i + l_j + 1 - l_i, l_i + l_j + 1 - l_j) :: stk0) := by
      simp [phase1Step, h1, h2]
    rw [hstep]
    have hL1 : dNonneg L1 := by
      have := dNonneg_dSetdefault L0 i 0 h le_rfl
      rwa [h1] at this
    have hL2 : dNonneg L2 := by
      have := dNonneg_dSetdefault L1 j 0 hL1 le_rfl
      rwa [h2] at this
    have hli : 0 ≤ l_i := by
      have := dGet_getD_nonneg L0 i h
      rwa [← dSetdefault_fst L0 i 0, h1] at this
    have hlj : 0 ≤ l_j := by
      have := dGet_getD_nonneg L1 j hL1
      rwa [← dSetdefault_fst L1 j 0, h2] at this
    exact ih _ _ (dNonneg_dSet _ _ _ (dNonneg_dSet _ _ _ hL2 (by omega)) (by omega))

/-- Restoration: when every event has distinct endpoints, the forward
sweep run against the reverse sweep's output consumes exactly the
pushed correction pairs, walks the leaving counts back to their
pre-reverse-sweep values, and reads only non-negative arrival and
leaving counts. -/
theorem phase2T_restore (evs : List (Event ν)) (L0 : List (ν × Int))
    (stk0 : List (Int × Int)) (A Lv : List (ν × Int))
    (hdist : ∀ e ∈ evs, e.2.1 ≠ e.2.2)
    (heq : EquivZ Lv (evs.reverse.foldl phase1Step (L0, stk0)).1)
    (hkeys : ∀ e ∈ evs, dGet Lv e.2.1 ≠ none ∧ dGet Lv e.2.2 ≠ none)
    (hLv : dNonneg Lv) (hL0 : dNonneg L0) (hA : dNonneg A) :
    ∃ tr AF LF,
      phase2T evs (evs.reverse.foldl phase1Step (L0, stk0)).2 A Lv =
        .ok (tr, AF, LF, stk0) ∧
      dNonneg AF ∧ dNonneg LF ∧ EquivZ LF L0 ∧
      (∀ k, dGet Lv k ≠ none → dGet LF k ≠ none) ∧
      (∀ r ∈ tr, 0 ≤ r.a_i ∧ 0 ≤ r.a_j ∧ 0 ≤ r.l_i ∧ 0 ≤ r.l_j) := by
  induction evs generalizing A Lv with
  | nil =>
    refine ⟨[], A, Lv, rfl, hA, hLv, ?_, fun k hk => hk, by simp⟩
    simpa using heq
  | cons e rest ih =>
    obtain ⟨t, i, j⟩ := e
    have hij : i ≠ j := hdist (t, i, j) (List.mem_cons_self _ _)
    rcases hMid : rest.reverse.foldl phase1Step (L0, stk0) with ⟨ML, Mstk⟩
    rcases hm1 : dSetdefault ML i 0 with ⟨mi, M1⟩
    rcases hm2 : dSetdefault M1 j 0 with ⟨mj, M2⟩
    have hmi : mi = (dGet ML i).getD 0 := by
      rw [← dSetdefault_fst ML i 0, hm1]
    have hM1 : M1 = (dSetdefault ML i 0).2 := by rw [hm1]
    have hmj : mj = (dGet ML j).getD 0 := by
      have h := dSetdefault_fst M1 j 0
      rw [hm2] at h
      rw [show mj = (dGet M1 j).getD 0 from h, hM1, getDz_dSetdefault_zero]
    have hM2z : ∀ k, (dGet M2 k).getD 0 = (dGet ML k).getD 0 := by
      intro k
      have hM2 : M2 = (dSetdefault M1 j 0).2 := by rw [hm2]
      rw [hM2, getDz_dSetdefault_zero, hM1, getDz_dSetdefault_zero]
    have hMLnn : dNonneg ML := by
      have := phase1_nonneg rest.reverse L0 stk0 hL0
      rwa [hMid] at this
    have hminn : 0 ≤ mi := hmi ▸ dGet_getD_nonneg ML i hMLnn
    have hmjnn : 0 ≤ mj := hmj ▸ dGet_getD_nonneg ML j hMLnn
    have hfull : ((t, i, j) :: rest).reverse.foldl phase1Step (L0, stk0) =
        (dSet (dSet M2 i (mi + mj + 1)) j (mi + mj + 1),
         (mi + mj + 1 - mi, mi + mj + 1 - mj) :: Mstk) := by
      rw [List.reverse_cons, List.foldl_append, List.foldl_cons,
        List.foldl_nil, hMid]
      simp [phase1Step, hm1, hm2]
    -- the leaving counts of i and j before the current forward event
    have hLvi : (dGet Lv i).getD 0 = mi + mj + 1 := by
      have h := heq i
      rw [hfull] at h
      rw [h, dGet_dSet, if_neg (fun hji : j = i => hij hji.symm),
        dGet_dSet_self]
      rfl
    have hLvj : (dGet Lv j).getD 0 = mi + mj + 1 := by
      have h := heq j
      rw [hfull] at h
      rw [h, dGet_dSet_self]
      rfl
    obtain ⟨hki, hkj⟩ := hkeys (t, i, j) (List.mem_cons_self _ _)
    obtain ⟨li0, hLi⟩ : ∃ v, dGet Lv i = some v :=
      Option.ne_none_iff_exists'.mp hki
    obtain ⟨lj0, hLj0⟩ : ∃ v, dGet Lv j = some v :=
      Option.ne_none_iff_exists'.mp hkj
    have hli0 : li0 = mi + mj + 1 := by
      have := hLvi
      rw [hLi] at this
      simpa using this
    have hlj0 : lj0 = mi + mj + 1 := by
      have := hLvj
      rw [hLj0] at this
      simpa using this
    subst hli0
    subst hlj0
    -- the forward sweep's reads for this event
    rcases h1 : dSetdefault A i 0 with ⟨a_i, A1⟩
    rcases h2 : dSetdefault A1 j 0 with ⟨a_j, A2⟩
    have hai : a_i = (dGet A i).getD 0 := by
      rw [← dSetdefault_fst A i 0, h1]
    have haj : a_j = (dGet A j).getD 0 := by
      have hA1 : A1 = (dSetdefault A i 0).2 := by rw [h1]
      have h := dSetdefault_fst A1 j 0
      rw [h2] at h
      rw [show a_j = (dGet A1 j).getD 0 from h, hA1, getDz_dSetdefault_zero]
    have hainn : 0 ≤ a_i := hai ▸ dGet_getD_nonneg A i hA
    have hajnn : 0 ≤ a_j := haj ▸ dGet_getD_nonneg A j hA
    have hLj : dGet (dSet Lv i (mi + mj + 1 - (mi + mj + 1 - mi))) j =
        some (mi + mj + 1) := by
      rw [dGet_dSet, if_neg hij, hLj0]
    have hl2i : dGet (dSet (dSet Lv i (mi + mj + 1 - (mi + mj + 1 - mi))) j
        (mi + mj + 1 - (mi + mj + 1 - mj))) i =
        some (mi + mj + 1 - (mi + mj + 1 - mi)) := by
      rw [dGet_dSet, if_neg (fun hji : j = i => hij hji.symm), dGet_dSet_self]
    have hl2j : dGet (dSet (dSet Lv i (mi + mj + 1 - (mi + mj + 1 - mi))) j
        (mi + mj + 1 - (mi + mj + 1 - mj))) j =
        some (mi + mj + 1 - (mi + mj + 1 - mj)) := dGet_dSet_self _ _ _
    -- the state handed to the remaining events
    set L2 : List (ν × Int) :=
      dSet (dSet Lv i (mi + mj + 1 - (mi + mj + 1 - mi))) j
        (mi + mj + 1 - (mi + mj + 1 - mj)) with hL2def
    set A3 : List (ν × Int) := dSet (dSet A2 i (a_i + a_j + 1)) j (a_i + a_j + 1)
      with hA3def
    have hdist' : ∀ e ∈ rest, e.2.1 ≠ e.2.2 :=
      fun e he => hdist e (List.mem_cons_of_mem _ he)
    have heq' : EquivZ L2 (rest.reverse.foldl phase1Step (L0, stk0)).1 := by
      intro k
      rw [hMid]
      by_cases hk : k = j
      · subst hk
        rw [hL2def, dGet_dSet_self]
        simp only [Option.getD_some]
        omega
      · by_cases hk' : k = i
        · subst hk'
          rw [hL2def, dGet_dSet, if_neg (fun h => hk h.symm), dGet_dSet_self]
          simp only [Option.getD_some]
          omega
        · rw [hL2def, dGet_dSet, if_neg (fun h => hk h.symm),
            dGet_dSet, if_neg (fun h => hk' h.symm)]
          have h := heq k
          rw [hfull] at h
          rw [h, dGet_dSet, if_neg (fun h' => hk h'.symm),
            dGet_dSet, if_neg (fun h' => hk' h'.symm)]
          exact hM2z k
    have hkeys' : ∀ e ∈ rest, dGet L2 e.2.1 ≠ none ∧ dGet L2 e.2.2 ≠ none := by
      intro f hf
      obtain ⟨hf1, hf2⟩ := hkeys f (List.mem_cons_of_mem _ hf)
      exact ⟨dGet_dSet_ne_none _ _ _ _ (dGet_dSet_ne_none _ _ _ _ hf1),
        dGet_dSet_ne_none _ _ _ _ (dGet_dSet_ne_none _ _ _ _ hf2)⟩
    have hLvnn' : dNonneg L2 := by
      apply dNonneg_dSet
      · apply dNonneg_dSet _ _ _ hLv
        omega
      · omega
    have hA3nn : dNonneg A3 := by
      have hA1nn : dNonneg A1 := by
        have := dNonneg_dSetdefault A i 0 hA le_rfl
        rwa [h1] at this
      have hA2nn : dNonneg A2 := by
        have := dNonneg_dSetdefault A1 j 0 hA1nn le_rfl
        rwa [h2] at this
      exact dNonneg_dSet _ _ _ (dNonneg_dSet _ _ _ hA2nn (by omega)) (by omega)
    obtain ⟨tr, AF, LF, hrun, hAFnn, hLFnn, hLFeq, hLFmono, htrnn⟩ :=
      ih A3 L2 hdist' heq' hkeys' hLvnn' hA3nn
    rw [hMid] at hrun
    refine ⟨⟨t, i, j, a_i, a_j,
        mi + mj + 1 - (mi + mj + 1 - mi), mi + mj + 1 - (mi + mj + 1 - mj)⟩ :: tr,
      AF, LF, ?_, hAFnn, hLFnn, hLFeq, ?_, ?_⟩
    · rw [hfull]
      simp only [phase2T, h1, h2, hLi, hLj, hl2i, hl2j, ← hL2def, ← hA3def,
        hrun]
    · intro k hk
      exact hLFmono k
        (dGet_dSet_ne_none _ _ _ _ (dGet_dSet_ne_none _ _ _ _ hk))
    · intro r hr
      rcases List.mem_cons.mp hr with rfl | hr'
      · refine ⟨hainn, hajnn, ?_, ?_⟩ <;> simp only [] <;> omega
      · exact htrnn r hr'

theorem mem_dKeys_dSetdefault_self (d : List (ν × Int)) (k : ν) (v : Int) :
    k ∈ dKeys (dSetdefault d k v).2 := by
  rw [dKeys_dSetdefault]
  by_cases h : k ∈ dKeys d <;> simp [h]

theorem mem_dKeys_dSetdefault_of_mem (d : List (ν × Int)) (k k' : ν) (v : Int)
    (h : k ∈ dKeys d) : k ∈ dKeys (dSetdefault d k' v).2 := by
  rw [dKeys_dSetdefault]
  by_cases h' : k' ∈ dKeys d <;> simp [h', h]

theorem dKeys_nbStep (ipe : Bool) (r : TraceRec ν) (d : List (ν × Int)) :
    dKeys (nbStep ipe r d) = keysAfter (dKeys d) r.i r.j := by
  unfold nbStep keysAfter
  rcases h1 : dSetdefault d r.i 0 with ⟨v1, nb1⟩
  rcases h2 : dSetdefault nb1 r.j 0 with ⟨v2, nb2⟩
  have hk1 : dKeys nb1 = if r.i ∈ dKeys d then dKeys d else dKeys d ++ [r.i] := by
    have := dKeys_dSetdefault d r.i 0
    rwa [h1] at this
  have hk2 : dKeys nb2 = if r.j ∈ dKeys nb1 then dKeys nb1
      else dKeys nb1 ++ [r.j] := by
    have := dKeys_dSetdefault nb1 r.j 0
    rwa [h2] at this
  have hi2 : r.i ∈ dKeys nb2 := by
    have hi1 : r.i ∈ dKeys nb1 := by
      have := mem_dKeys_dSetdefault_self d r.i 0
      rwa [h1] at this
    have := mem_dKeys_dSetdefault_of_mem nb1 r.i r.j 0 hi1
    rwa [h2] at this
  have hj2 : r.j ∈ dKeys nb2 := by
    have := mem_dKeys_dSetdefault_self nb1 r.j 0
    rwa [h2] at this
  simp only [h1, h2]
  rw [dKeys_dSet_mem _ _ _ (by rwa [dKeys_dSet_mem _ _ _ hi2]),
    dKeys_dSet_mem _ _ _ hi2, hk2, hk1]

theorem getDz_dSetdefault_pair {d nb1 : List (ν × Int)} {k : ν} {v1 : Int}
    (h : dSetdefault d k 0 = (v1, nb1)) :
    v1 = (dGet d k).getD 0 ∧ ∀ k', (dGet nb1 k').getD 0 = (dGet d k').getD 0 := by
  constructor
  · have := dSetdefault_fst d k 0
    rw [h] at this
    exact this
  · intro k'
    have : nb1 = (dSetdefault d k 0).2 := by rw [h]
    rw [this, getDz_dSetdefault_zero]

theorem getDz_nbStep_i (ipe : Bool) (r : TraceRec ν) (d : List (ν × Int))
    (hij : r.i ≠ r.j) :
    (dGet (nbStep ipe r d) r.i).getD 0 =
      (dGet d r.i).getD 0 + r.a_j * r.l_i + r.l_i +
        (if ipe then r.a_j + r.l_j else 0) := by
  unfold nbStep
  rcases h1 : dSetdefault d r.i 0 with ⟨v1, nb1⟩
  rcases h2 : dSetdefault nb1 r.j 0 with ⟨v2, nb2⟩
  obtain ⟨hv1, hz1⟩ := getDz_dSetdefault_pair h1
  simp only [h1, h2]
  rw [dGet_dSet, if_neg (fun h : r.j = r.i => hij h.symm), dGet_dSet_self]
  cases ipe <;> simp [hv1] <;> ring

theorem getDz_nbStep_j (ipe : Bool) (r : TraceRec ν) (d : List (ν × Int))
    (hij : r.i ≠ r.j) :
    (dGet (nbStep ipe r d) r.j).getD 0 =
      (dGet d r.j).getD 0 + r.a_i * r.l_j + r.l_j +
        (if ipe then r.a_i + r.l_i else 0) := by
  unfold nbStep
  rcases h1 : dSetdefault d r.i 0 with ⟨v1, nb1⟩
  rcases h2 : dSetdefault nb1 r.j 0 with ⟨v2, nb2⟩
  obtain ⟨hv1, hz1⟩ := getDz_dSetdefault_pair h1
  obtain ⟨hv2, hz2⟩ := getDz_dSetdefault_pair h2
  simp only [h1, h2]
  rw [dGet_dSet_self]
  cases ipe <;> simp [hv2, hz1] <;> ring

theorem getDz_nbStep_other (ipe : Bool) (r : TraceRec ν) (d : List (ν × Int))
    (k : ν) (hki : k ≠ r.i) (hkj : k ≠ r.j) :
    (dGet (nbStep ipe r d) k).getD 0 = (dGet d k).getD 0 := by
  unfold nbStep
  rcases h1 : dSetdefault d r.i 0 with ⟨v1, nb1⟩
  rcases h2 : dSetdefault nb1 r.j 0 with ⟨v2, nb2⟩
  obtain ⟨hv1, hz1⟩ := getDz_dSetdefault_pair h1
  obtain ⟨hv2, hz2⟩ := getDz_dSetdefault_pair h2
  simp only [h1, h2]
  rw [dGet_dSet, if_neg (fun h : r.j = k => hkj h.symm),
    dGet_dSet, if_neg (fun h : r.i = k => hki h.symm)]
  rw [show (dGet nb2 k).getD 0 = (dGet d k).getD 0 from (hz2 k).trans (hz1 k)]

theorem dNonneg_nbStep (ipe : Bool) (r : TraceRec ν) (d : List (ν × Int))
    (hr : 0 ≤ r.a_i ∧ 0 ≤ r.a_j ∧ 0 ≤ r.l_i ∧ 0 ≤ r.l_j)
    (h : dNonneg d) : dNonneg (nbStep ipe r d) := by
  obtain ⟨ha1, ha2, hl1, hl2⟩ := hr
  unfold nbStep
  rcases h1 : dSetdefault d r.i 0 with ⟨v1, nb1⟩
  rcases h2 : dSetdefault nb1 r.j 0 with ⟨v2, nb2⟩
  obtain ⟨hv1, hz1⟩ := getDz_dSetdefault_pair h1
  have hnb1 : dNonneg nb1 := by
    have := dNonneg_dSetdefault d r.i 0 h le_rfl
    rwa [h1] at this
  have hnb2 : dNonneg nb2 := by
    have := dNonneg_dSetdefault nb1 r.j 0 hnb1 le_rfl
    rwa [h2] at this
  obtain ⟨hv2, hz2⟩ := getDz_dSetdefault_pair h2
  have hv1n : 0 ≤ v1 := by
    rw [hv1]
    exact dGet_getD_nonneg d r.i h
  have hv2n : 0 ≤ v2 := by
    rw [hv2]
    exact dGet_getD_nonneg nb1 r.j hnb1
  have hmul1 : 0 ≤ r.a_j * r.l_i := mul_nonneg ha2 hl1
  have hmul2 : 0 ≤ r.a_i * r.l_j := mul_nonneg ha1 hl2
  simp only [h1, h2]
  apply dNonneg_dSet
  · apply dNonneg_dSet _ _ _ hnb2
    cases ipe <;> simp <;> omega
  · cases ipe <;> simp <;> omega

theorem dNonneg_nbEvolve (ipe : Bool) (tr : List (TraceRec ν))
    (d : List (ν × Int))
    (hnn : ∀ r ∈ tr, 0 ≤ r.a_i ∧ 0 ≤ r.a_j ∧ 0 ≤ r.l_i ∧ 0 ≤ r.l_j)
    (h : dNonneg d) : dNonneg (nbEvolve ipe tr d) := by
  induction tr generalizing d with
  | nil => simpa
  | cons r tr ih =>
    rw [nbEvolve_cons]
    exact ih _ (fun s hs => hnn s (List.mem_cons_of_mem _ hs))
      (dNonneg_nbStep ipe r d (hnn r (List.mem_cons_self _ _)) h)

theorem sumValues_nbStep_false (r : TraceRec ν) (d : List (ν × Int))
    (hij : r.i ≠ r.j) :
    sumValues (nbStep false r d) =
      sumValues d + (r.a_i * r.l_j + r.a_j * r.l_i + r.l_i + r.l_j) := by
  unfold nbStep
  rcases h1 : dSetdefault d r.i 0 with ⟨v1, nb1⟩
  rcases h2 : dSetdefault nb1 r.j 0 with ⟨v2, nb2⟩
  obtain ⟨hv1, hz1⟩ := getDz_dSetdefault_pair h1
  obtain ⟨hv2, hz2⟩ := getDz_dSetdefault_pair h2
  have hsum1 : sumValues nb1 = sumValues d := by
    have := sumValues_dSetdefault_zero d r.i
    rwa [h1] at this
  have hsum2 : sumValues nb2 = sumValues nb1 := by
    have := sumValues_dSetdefault_zero nb1 r.j
    rwa [h2] at this
  have hgi : dGet nb2 r.i = some v1 := by
    have hi2 : dGet nb2 r.i = dGet nb1 r.i := by
      have : nb2 = (dSetdefault nb1 r.j 0).2 := by rw [h2]
      rw [this, dGet_dSetdefault, if_neg (fun h : r.j = r.i => hij h.symm)]
    have hi1 : dGet nb1 r.i = some v1 := by
      have : nb1 = (dSetdefault d r.i 0).2 := by rw [h1]
      rw [this, dGet_dSetdefault, if_pos rfl, ← hv1]
    rw [hi2, hi1]
  have hgj : dGet (dSet nb2 r.i (v1 + r.a_j * r.l_i + r.l_i)) r.j = some v2 := by
    rw [dGet_dSet, if_neg hij]
    have : nb2 = (dSetdefault nb1 r.j 0).2 := by rw [h2]
    rw [this, dGet_dSetdefault, if_pos rfl, ← hv2]
  simp only [h1, h2, if_neg (Bool.false_ne_true)]
  rw [sumValues_dSet_present _ _ _ _ hgj,
    sumValues_dSet_present _ _ _ _ hgi, hsum2, hsum1]
  ring

theorem sumValues_nbEvolve_false (tr : List (TraceRec ν)) (d : List (ν × Int))
    (hij : ∀ r ∈ tr, r.i ≠ r.j) :
    sumValues (nbEvolve false tr d) = sumValues d + throughEndsSum tr := by
  induction tr generalizing d with
  | nil => simp [throughEndsSum]
  | cons r tr ih =>
    rw [nbEvolve_cons, ih _ (fun s hs => hij s (List.mem_cons_of_mem _ hs)),
      sumValues_nbStep_false r d (hij r (List.mem_cons_self _ _))]
    simp only [throughEndsSum, List.map_cons, List.sum_cons]
    ring

/-- With a non-negative trace, the run with path ends included stays
pointwise above the run without, over the same key list. -/
theorem nbEvolve_le (tr : List (TraceRec ν))
    (hnn : ∀ r ∈ tr, 0 ≤ r.a_i ∧ 0 ≤ r.a_j ∧ 0 ≤ r.l_i ∧ 0 ≤ r.l_j)
    (hij : ∀ r ∈ tr, r.i ≠ r.j)
    (dT dF : List (ν × Int)) (hkeys : dKeys dT = dKeys dF)
    (hle : ∀ k, (dGet dF k).getD 0 ≤ (dGet dT k).getD 0) :
    dKeys (nbEvolve true tr dT) = dKeys (nbEvolve false tr dF) ∧
    ∀ k, (dGet (nbEvolve false tr dF) k).getD 0 ≤
      (dGet (nbEvolve true tr dT) k).getD 0 := by
  induction tr generalizing dT dF with
  | nil => exact ⟨hkeys, hle⟩
  | cons r tr ih =>
    have hr := hnn r (List.mem_cons_self _ _)
    have hrij := hij r (List.mem_cons_self _ _)
    simp only [nbEvolve_cons]
    apply ih (fun s hs => hnn s (List.mem_cons_of_mem _ hs))
      (fun s hs => hij s (List.mem_cons_of_mem _ hs))
    · rw [dKeys_nbStep, dKeys_nbStep, hkeys]
    · intro k
      by_cases hki : k = r.i
      · subst hki
        rw [getDz_nbStep_i _ _ _ hrij, getDz_nbStep_i _ _ _ hrij]
        have h1 := hle r.i
        have h2 : 0 ≤ r.a_j + r.l_j := by
          obtain ⟨_, h3, _, h4⟩ := hr
          omega
        simp only [eq_self_iff_true, if_true, if_neg Bool.false_ne_true]
        linarith
      · by_cases hkj : k = r.j
        · subst hkj
          rw [getDz_nbStep_j _ _ _ hrij, getDz_nbStep_j _ _ _ hrij]
          have h1 := hle r.j
          have h2 : 0 ≤ r.a_i + r.l_i := by
            obtain ⟨h3, _, h4, _⟩ := hr
            omega
          simp only [eq_self_iff_true, if_true, if_neg Bool.false_ne_true]
          linarith
        · rw [getDz_nbStep_other _ _ _ _ hki hkj,
            getDz_nbStep_other _ _ _ _ hki hkj]
          exact hle k

theorem dGet_setdefault2 (d : List (ν × Int)) (i j k : ν) :
    dGet (dSetdefault (dSetdefault d i 0).2 j 0).2 k =
      if j = k then some ((dGet d j).getD 0)
      else if i = k then some ((dGet d i).getD 0)
      else dGet d k := by
  rw [dGet_dSetdefault]
  by_cases hjk : j = k
  · subst hjk
    rw [if_pos rfl, if_pos rfl, dGet_dSetdefault]
    by_cases hij : i = j
    · subst hij
      simp
    · simp [hij]
  · rw [if_neg hjk, if_neg hjk, dGet_dSetdefault]

theorem dGet_dSet2 (d : List (ν × Int)) (i j k : ν) (v : Int) :
    dGet (dSet (dSet d i v) j v) k =
      if k = i ∨ k = j then some v else dGet d k := by
  rw [dGet_dSet, dGet_dSet]
  by_cases hj : j = k
  · simp [hj]
  · by_cases hi : i = k
    · rw [if_neg hj, if_pos hi, if_pos (Or.inl hi.symm)]
    · rw [if_neg hj, if_neg hi, if_neg]
      rintro (h | h)
      · exact hi h.symm
      · exact hj h.symm

/-- How one reverse-sweep step changes the leaving-count dictionary. -/
theorem phase1Step_L_char (L : List (ν × Int)) (stk : List (Int × Int))
    (t : Int) (i j k : ν) :
    dGet (phase1Step (L, stk) (t, i, j)).1 k =
      if k = i ∨ k = j then
        some ((dGet L i).getD 0 + (dGet L j).getD 0 + 1)
      else dGet L k := by
  rcases h1 : dSetdefault L i 0 with ⟨l_i, L1⟩
  rcases h2 : dSetdefault L1 j 0 with ⟨l_j, L2⟩
  obtain ⟨hv1, hz1⟩ := getDz_dSetdefault_pair h1
  obtain ⟨hv2, hz2⟩ := getDz_dSetdefault_pair h2
  have hstep : (phase1Step (L, stk) (t, i, j)).1 =
      dSet (dSet L2 i (l_i + l_j + 1)) j (l_i + l_j + 1) := by
    simp [phase1Step, h1, h2]
  rw [hstep, dGet_dSet2]
  by_cases hk : k = i ∨ k = j
  · rw [if_pos hk, if_pos hk, hv1, hv2, hz1]
  · rw [if_neg hk, if_neg hk]
    push_neg at hk
    have hL2 : L2 = (dSetdefault L1 j 0).2 := by rw [h2]
    have hL1 : L1 = (dSetdefault L i 0).2 := by rw [h1]
    rw [hL2, dGet_dSetdefault, if_neg (fun h : j = k => hk.2 h.symm),
      hL1, dGet_dSetdefault, if_neg (fun h : i = k => hk.1 h.symm)]

/-- How one reverse-sweep step changes the correction stack. -/
theorem phase1Step_stack_char (L : List (ν × Int)) (stk : List (Int × Int))
    (t : Int) (i j : ν) :
    (phase1Step (L, stk) (t, i, j)).2 =
      ((dGet L j).getD 0 + 1, (dGet L i).getD 0 + 1) :: stk := by
  rcases h1 : dSetdefault L i 0 with ⟨l_i, L1⟩
  rcases h2 : dSetdefault L1 j 0 with ⟨l_j, L2⟩
  obtain ⟨hv1, hz1⟩ := getDz_dSetdefault_pair h1
  obtain ⟨hv2, hz2⟩ := getDz_dSetdefault_pair h2
  have hstep : (phase1Step (L, stk) (t, i, j)).2 =
      (l_i + l_j + 1 - l_i, l_i + l_j + 1 - l_j) :: stk := by
    simp [phase1Step, h1, h2]
  rw [hstep, hv1, hv2, hz1]
  congr 2 <;> omega

/-- Swapping both endpoints of every event leaves the reverse sweep's
leaving counts unchanged and swaps each pushed correction pair. -/
theorem phase1_swap (xs : List (Event ν)) (L L' : List (ν × Int))
    (stk stk' : List (Int × Int)) (hL : EquivO L L')
    (hstk : stk' = stk.map swapPair) :
    EquivO (xs.foldl phase1Step (L, stk)).1
        ((xs.map swapEvent).foldl phase1Step (L', stk')).1 ∧
    ((xs.map swapEvent).foldl phase1Step (L', stk')).2 =
      (xs.foldl phase1Step (L, stk)).2.map swapPair := by
  induction xs generalizing L L' stk stk' with
  | nil => exact ⟨hL, hstk⟩
  | cons e xs ih =>
    obtain ⟨t, i, j⟩ := e
    rw [List.map_cons, List.foldl_cons, List.foldl_cons,
      show swapEvent (t, i, j) = (t, j, i) from rfl]
    rcases hs1 : phase1Step (L, stk) (t, i, j) with ⟨La, stka⟩
    rcases hs2 : phase1Step (L', stk') (t, j, i) with ⟨La', stka'⟩
    have hLa : EquivO La La' := by
      intro k
      have hchar1 : dGet La k =
          if k = i ∨ k = j then
            some ((dGet L i).getD 0 + (dGet L j).getD 0 + 1)
          else dGet L k := by
        rw [show La = (phase1Step (L, stk) (t, i, j)).1 from by rw [hs1]]
        exact phase1Step_L_char L stk t i j k
      have hchar2 : dGet La' k =
          if k = j ∨ k = i then
            some ((dGet L' j).getD 0 + (dGet L' i).getD 0 + 1)
          else dGet L' k := by
        rw [show La' = (phase1Step (L', stk') (t, j, i)).1 from by rw [hs2]]
        exact phase1Step_L_char L' stk' t j i k
      rw [hchar1, hchar2, ← hL i, ← hL j]
      by_cases hk : k = i ∨ k = j
      · rw [if_pos hk, if_pos (Or.symm hk)]
        congr 1
        omega
      · rw [if_neg hk, if_neg (fun h => hk (Or.symm h)), hL k]
    have hstka : stka' = stka.map swapPair := by
      have hchar1 : stka = ((dGet L j).getD 0 + 1, (dGet L i).getD 0 + 1) ::
          stk := by
        rw [show stka = (phase1Step (L, stk) (t, i, j)).2 from by rw [hs1]]
        exact phase1Step_stack_char L stk t i j
      have hchar2 : stka' = ((dGet L' i).getD 0 + 1, (dGet L' j).getD 0 + 1) ::
          stk' := by
        rw [show stka' = (phase1Step (L', stk') (t, j, i)).2 from by rw [hs2]]
        exact phase1Step_stack_char L' stk' t j i
      rw [hchar2, hchar1, hstk, ← hL i, ← hL j]
      rfl
    exact ih La La' stka stka' hLa hstka

theorem EquivO_dSet (d d' : List (ν × Int)) (h : EquivO d d') (k : ν) (v : Int) :
    EquivO (dSet d k v) (dSet d' k v) := by
  intro k'
  rw [dGet_dSet, dGet_dSet, h k']

theorem EquivO_dSet_comm (d d' : List (ν × Int)) (h : EquivO d d') (i j : ν)
    (hij : i ≠ j) (vi vj : Int) :
    EquivO (dSet (dSet d i vi) j vj) (dSet (dSet d' j vj) i vi) := by
  intro k
  rw [dGet_dSet, dGet_dSet, dGet_dSet, dGet_dSet]
  by_cases hjk : j = k
  · rw [if_pos hjk, if_neg (fun h' : i = k => hij (h'.trans hjk.symm)),
      if_pos hjk]
  · by_cases hik : i = k
    · rw [if_neg hjk, if_pos hik, if_pos hik]
    · rw [if_neg hjk, if_neg hik, if_neg hik, if_neg hjk, h k]

theorem EquivO_dSet_same (d d' : List (ν × Int)) (h : EquivO d d') (i : ν)
    (v v' w w' : Int) (hw : w = w') :
    EquivO (dSet (dSet d i v) i w) (dSet (dSet d' i v') i w') := by
  intro k
  rw [dGet_dSet, dGet_dSet, dGet_dSet, dGet_dSet]
  by_cases hik : i = k
  · rw [if_pos hik, if_pos hik, hw]
  · rw [if_neg hik, if_neg hik, if_neg hik, if_neg hik, h k]

theorem EquivO_dSet2_swap (d d' : List (ν × Int)) (h : EquivO d d') (i j : ν)
    (v v' : Int) (hv : v = v') :
    EquivO (dSet (dSet d i v) j v) (dSet (dSet d' j v') i v') := by
  intro k
  rw [dGet_dSet2, dGet_dSet2, h k, hv]
  by_cases hk : k = i ∨ k = j
  · rw [if_pos hk, if_pos (Or.symm hk)]
  · rw [if_neg hk, if_neg (fun h' => hk (Or.symm h'))]

theorem EquivO_setdefault2_swap (d d' : List (ν × Int)) (h : EquivO d d')
    (i j : ν) :
    EquivO (dSetdefault (dSetdefault d i 0).2 j 0).2
      (dSetdefault (dSetdefault d' j 0).2 i 0).2 := by
  intro k
  have hgz : ∀ x : ν, (dGet d x).getD 0 = (dGet d' x).getD 0 :=
    fun x => by rw [h x]
  rw [dGet_setdefault2, dGet_setdefault2]
  by_cases hjk : j = k
  · by_cases hik : i = k
    · rw [if_pos hjk, if_pos hik, hgz j, show j = i from hjk.trans hik.symm]
    · rw [if_pos hjk, if_neg hik, if_pos hjk, hgz j]
  · by_cases hik : i = k
    · rw [if_neg hjk, if_pos hik, if_pos hik, hgz i]
    · rw [if_neg hjk, if_neg hik, if_neg hik, if_neg hjk, h k]

/-- Swapping both endpoints of every event (and both components of every
correction pair) swaps each trace record and leaves the final
dictionaries pointwise unchanged. -/
theorem phase2T_swap (evs : List (Event ν)) (stack : List (Int × Int))
    (A A' L L' : List (ν × Int)) (hA : EquivO A A') (hL : EquivO L L')
    (tr : List (TraceRec ν)) (AF LF : List (ν × Int)) (stkF : List (Int × Int))
    (h : phase2T evs stack A L = .ok (tr, AF, LF, stkF)) :
    ∃ AF' LF',
      phase2T (evs.map swapEvent) (stack.map swapPair) A' L' =
        .ok (tr.map swapRec, AF', LF', stkF.map swapPair) ∧
      EquivO AF AF' ∧ EquivO LF LF' := by
  induction evs generalizing stack A A' L L' tr with
  | nil =>
    simp only [phase2T] at h
    injection h with h'
    injection h' with e1 h'
    injection h' with e2 h'
    injection h' with e3 e4
    subst e1
    subst e2
    subst e3
    subst e4
    exact ⟨A', L', rfl, hA, hL⟩
  | cons e evs ih =>
    obtain ⟨t, i, j⟩ := e
    cases stack with
    | nil => exact absurd h (by simp [phase2T])
    | cons d stack' =>
      obtain ⟨iUpd, jUpd⟩ := d
      rcases h1 : dSetdefault A i 0 with ⟨a_i, A1⟩
      rcases h2 : dSetdefault A1 j 0 with ⟨a_j, A2⟩
      obtain ⟨hva, hza⟩ := getDz_dSetdefault_pair h1
      obtain ⟨hvb, hzb⟩ := getDz_dSetdefault_pair h2
      have haj : a_j = (dGet A j).getD 0 := by rw [hvb, hza]
      cases hLi : dGet L i with
      | none =>
        simp only [phase2T, h1, h2, hLi] at h
        exact absurd h (by simp)
      | some li0 =>
        cases hLj : dGet (dSet L i (li0 - iUpd)) j with
        | none =>
          simp only [phase2T, h1, h2, hLi, hLj] at h
          exact absurd h (by simp)
        | some lj0 =>
          cases hl2i : dGet (dSet (dSet L i (li0 - iUpd)) j (lj0 - jUpd)) i with
          | none =>
            cases hl2j :
                dGet (dSet (dSet L i (li0 - iUpd)) j (lj0 - jUpd)) j <;>
              · simp only [phase2T, h1, h2, hLi, hLj, hl2i, hl2j] at h
                exact absurd h (by simp)
          | some l_i =>
            cases hl2j :
                dGet (dSet (dSet L i (li0 - iUpd)) j (lj0 - jUpd)) j with
            | none =>
              simp only [phase2T, h1, h2, hLi, hLj, hl2i, hl2j] at h
              exact absurd h (by simp)
            | some l_j =>
              simp only [phase2T, h1, h2, hLi, hLj, hl2i, hl2j] at h
              cases hrec : phase2T evs stack'
                  (dSet (dSet A2 i (a_i + a_j + 1)) j (a_i + a_j + 1))
                  (dSet (dSet L i (li0 - iUpd)) j (lj0 - jUpd)) with
              | error e2 =>
                rw [hrec] at h
                exact absurd h (by simp)
              | ok r =>
                rw [hrec] at h
                obtain ⟨tr2, AF2, LF2, stk2⟩ := r
                injection h with h'
                injection h' with e1 h'
                injection h' with e2 h'
                injection h' with e3 e4
                subst e1
                subst e2
                subst e3
                subst e4
                rcases g1 : dSetdefault A' j 0 with ⟨b1, B1⟩
                rcases g2 : dSetdefault B1 i 0 with ⟨b2, B2⟩
                obtain ⟨hvc, hzc⟩ := getDz_dSetdefault_pair g1
                obtain ⟨hvd, hzd⟩ := getDz_dSetdefault_pair g2
                have hb1 : b1 = a_j := by rw [hvc, ← hA j, ← haj]
                have hb2 : b2 = a_i := by rw [hvd, hzc, ← hA i, ← hva]
                rw [hb1] at g1
                rw [hb2] at g2
                have hA2 : A2 = (dSetdefault (dSetdefault A i 0).2 j 0).2 := by
                  rw [show A1 = (dSetdefault A i 0).2 from by rw [h1]] at h2
                  rw [h2]
                have hB2 : B2 = (dSetdefault (dSetdefault A' j 0).2 i 0).2 := by
                  rw [show B1 = (dSetdefault A' j 0).2 from by rw [g1]] at g2
                  rw [g2]
                have hA2B2 : EquivO A2 B2 := by
                  rw [hA2, hB2]
                  exact EquivO_setdefault2_swap A A' hA i j
                rw [List.map_cons, List.map_cons,
                  show swapEvent (t, i, j) = (t, j, i) from rfl,
                  show swapPair (iUpd, jUpd) = (jUpd, iUpd) from rfl]
                by_cases hij : i = j
                · -- self-loop event: the swap is the identity on the event
                  subst hij
                  have haij : a_j = a_i := by rw [haj, ← hva]
                  have hlj0 : lj0 = li0 - iUpd := by
                    rw [dGet_dSet_self] at hLj
                    exact (Option.some.inj hLj).symm
                  have hli : l_i = lj0 - jUpd := by
                    rw [dGet_dSet_self] at hl2i
                    exact (Option.some.inj hl2i).symm
                  have hlj : l_j = lj0 - jUpd := by
                    rw [dGet_dSet_self] at hl2j
                    exact (Option.some.inj hl2j).symm
                  have hll : l_i = l_j := by rw [hli, hlj]
                  have pLj : dGet L' i = some li0 := by rw [← hL i]; exact hLi
                  have pLi : dGet (dSet L' i (li0 - jUpd)) i =
                      some (li0 - jUpd) := dGet_dSet_self _ _ _
                  have pl2 : dGet (dSet (dSet L' i (li0 - jUpd)) i
                      (li0 - jUpd - iUpd)) i = some l_j := by
                    rw [dGet_dSet_self, hlj, hlj0]
                    congr 1
                    omega
                  have hA3 : EquivO
                      (dSet (dSet A2 i (a_i + a_j + 1)) i (a_i + a_j + 1))
                      (dSet (dSet B2 i (a_j + a_i + 1)) i (a_j + a_i + 1)) :=
                    EquivO_dSet_same A2 B2 hA2B2 i _ _ _ _ (by ring)
                  have hL2 : EquivO
                      (dSet (dSet L i (li0 - iUpd)) i (lj0 - jUpd))
                      (dSet (dSet L' i (li0 - jUpd)) i (li0 - jUpd - iUpd)) :=
                    EquivO_dSet_same L L' hL i _ _ _ _ (by omega)
                  obtain ⟨AF', LF', hrec', hEA, hEL⟩ :=
                    ih _ _ _ _ _ hA3 hL2 _ hrec
                  refine ⟨AF', LF', ?_, hEA, hEL⟩
                  simp only [phase2T, g1, g2, pLj, pLi, pl2, hrec']
                  simp only [List.map_cons, swapRec, hll]
                · -- distinct endpoints
                  have hlj0 : dGet L j = some lj0 := by
                    rw [dGet_dSet, if_neg hij] at hLj
                    exact hLj
                  have hli : l_i = li0 - iUpd := by
                    rw [dGet_dSet, if_neg (fun h' : j = i => hij h'.symm),
                      dGet_dSet_self] at hl2i
                    exact (Option.some.inj hl2i).symm
                  have hlj : l_j = lj0 - jUpd := by
                    rw [dGet_dSet_self] at hl2j
                    exact (Option.some.inj hl2j).symm
                  have pLj : dGet L' j = some lj0 := by rw [← hL j]; exact hlj0
                  have pLi : dGet (dSet L' j (lj0 - jUpd)) i = some li0 := by
                    rw [dGet_dSet, if_neg (fun h' : j = i => hij h'.symm),
                      ← hL i]
                    exact hLi
                  have pl2j : dGet (dSet (dSet L' j (lj0 - jUpd)) i
                      (li0 - iUpd)) j = some l_j := by
                    rw [dGet_dSet, if_neg hij, dGet_dSet_self, hlj]
                  have pl2i : dGet (dSet (dSet L' j (lj0 - jUpd)) i
                      (li0 - iUpd)) i = some l_i := by
                    rw [dGet_dSet_self, hli]
                  have hA3 : EquivO
                      (dSet (dSet A2 i (a_i + a_j + 1)) j (a_i + a_j + 1))
                      (dSet (dSet B2 j (a_j + a_i + 1)) i (a_j + a_i + 1)) :=
                    EquivO_dSet2_swap A2 B2 hA2B2 i j _ _ (by ring)
                  have hL2 : EquivO
                      (dSet (dSet L i (li0 - iUpd)) j (lj0 - jUpd))
                      (dSet (dSet L' j (lj0 - jUpd)) i (li0 - iUpd)) :=
                    EquivO_dSet_comm L L' hL i j hij _ _
                  obtain ⟨AF', LF', hrec', hEA, hEL⟩ :=
                    ih _ _ _ _ _ hA3 hL2 _ hrec
                  refine ⟨AF', LF', ?_, hEA, hEL⟩
                  simp only [phase2T, g1, g2, pLj, pLi, pl2j, pl2i, hrec']
                  simp only [List.map_cons, swapRec]

/-- In any successful trace, a self-loop record has equal arrival reads
and equal leaving reads on its two (identical) endpoints. -/
theorem phase2T_reg (evs : List (Event ν)) (stack : List (Int × Int))
    (A L : List (ν × Int)) (tr : List (TraceRec ν)) (AF LF : List (ν × Int))
    (stkF : List (Int × Int)) (h : phase2T evs stack A L = .ok (tr, AF, LF, stkF)) :
    ∀ r ∈ tr, r.i = r.j → r.a_i = r.a_j ∧ r.l_i = r.l_j := by
  induction evs generalizing stack A L tr AF LF stkF with
  | nil =>
    simp only [phase2T] at h
    injection h with h'
    injection h' with e1 h'
    subst e1
    intro r hr
    cases hr
  | cons e evs ih =>
    obtain ⟨t, i, j⟩ := e
    cases stack with
    | nil => exact absurd h (by simp [phase2T])
    | cons d stack' =>
      obtain ⟨iUpd, jUpd⟩ := d
      rcases h1 : dSetdefault A i 0 with ⟨a_i, A1⟩
      rcases h2 : dSetdefault A1 j 0 with ⟨a_j, A2⟩
      obtain ⟨hva, hza⟩ := getDz_dSetdefault_pair h1
      obtain ⟨hvb, hzb⟩ := getDz_dSetdefault_pair h2
      cases hLi : dGet L i with
      | none =>
        simp only [phase2T, h1, h2, hLi] at h
        exact absurd h (by simp)
      | some li0 =>
        cases hLj : dGet (dSet L i (li0 - iUpd)) j with
        | none =>
          simp only [phase2T, h1, h2, hLi, hLj] at h
          exact absurd h (by simp)
        | some lj0 =>
          cases hl2i : dGet (dSet (dSet L i (li0 - iUpd)) j (lj0 - jUpd)) i with
          | none =>
            cases hl2j :
                dGet (dSet (dSet L i (li0 - iUpd)) j (lj0 - jUpd)) j <;>
              · simp only [phase2T, h1, h2, hLi, hLj, hl2i, hl2j] at h
                exact absurd h (by simp)
          | some l_i =>
            cases hl2j :
                dGet (dSet (dSet L i (li0 - iUpd)) j (lj0 - jUpd)) j with
            | none =>
              simp only [phase2T, h1, h2, hLi, hLj, hl2i, hl2j] at h
              exact absurd h (by simp)
            | some l_j =>
              simp only [phase2T, h1, h2, hLi, hLj, hl2i, hl2j] at h
              cases hrec : phase2T evs stack'
                  (dSet (dSet A2 i (a_i + a_j + 1)) j (a_i + a_j + 1))
                  (dSet (dSet L i (li0 - iUpd)) j (lj0 - jUpd)) with
              | error e2 =>
                rw [hrec] at h
                exact absurd h (by simp)
              | ok r =>
                rw [hrec] at h
                obtain ⟨tr2, AF2, LF2, stk2⟩ := r
                injection h with h'
                injection h' with e1 h'
                subst e1
                intro s hs
                rcases List.mem_cons.mp hs with rfl | hs'
                · intro hsij
                  simp only at hsij
                  constructor
                  · simp only
                    rw [hva, hvb, hza, hsij]
                  · simp only
                    rw [← hsij] at hl2i hl2j
                    rw [hl2i] at hl2j
                    exact Option.some.inj hl2j
                · exact ih _ _ _ _ _ _ _ hrec s hs'

/-- Full lookup characterization of one node-betweenness step. -/
theorem dGet_nbStep_char (ipe : Bool) (r : TraceRec ν) (d : List (ν × Int))
    (k : ν) :
    dGet (nbStep ipe r d) k =
      if r.j = k then
        some ((dGet d r.j).getD 0 + r.a_i * r.l_j + r.l_j +
          (if ipe then r.a_i + r.l_i else 0))
      else if r.i = k then
        some ((dGet d r.i).getD 0 + r.a_j * r.l_i + r.l_i +
          (if ipe then r.a_j + r.l_j else 0))
      else dGet d k := by
  unfold nbStep
  rcases h1 : dSetdefault d r.i 0 with ⟨v1, nb1⟩
  rcases h2 : dSetdefault nb1 r.j 0 with ⟨v2, nb2⟩
  obtain ⟨hv1, hz1⟩ := getDz_dSetdefault_pair h1
  obtain ⟨hv2, hz2⟩ := getDz_dSetdefault_pair h2
  have hnb2 : nb2 = (dSetdefault (dSetdefault d r.i 0).2 r.j 0).2 := by
    rw [show nb1 = (dSetdefault d r.i 0).2 from by rw [h1]] at h2
    rw [h2]
  simp only [h1, h2]
  rw [dGet_dSet, dGet_dSet]
  by_cases hjk : r.j = k
  · rw [if_pos hjk, if_pos hjk, hv2, hz1]
    cases ipe <;> simp <;> ring
  · rw [if_neg hjk, if_neg hjk]
    by_cases hik : r.i = k
    · rw [if_pos hik, if_pos hik, hv1]
      cases ipe <;> simp <;> ring
    · rw [if_neg hik, if_neg hik, hnb2, dGet_setdefault2,
        if_neg hjk, if_neg hik]

/-- One node-betweenness step on a swapped record, from a pointwise-equal
dictionary, stays pointwise equal. -/
theorem nbStep_swap (ipe : Bool) (r : TraceRec ν) (d d' : List (ν × Int))
    (hreg : r.i = r.j → r.a_i = r.a_j ∧ r.l_i = r.l_j)
    (h : EquivO d d') :
    EquivO (nbStep ipe r d) (nbStep ipe (swapRec r) d') := by
  intro k
  rw [dGet_nbStep_char, dGet_nbStep_char]
  simp only [swapRec]
  rw [← h r.i, ← h r.j]
  by_cases hik : r.i = k
  · by_cases hjk : r.j = k
    · obtain ⟨ha, hl⟩ := hreg (hik.trans hjk.symm)
      rw [if_pos hjk, if_pos hik, hik, hjk, ha, hl]
    · rw [if_neg hjk, if_pos hik, if_pos hik]
  · by_cases hjk : r.j = k
    · rw [if_pos hjk, if_neg hik, if_pos hjk]
    · rw [if_neg hjk, if_neg hik, if_neg hik, if_neg hjk, h k]

/-- Evolving with a swapped trace from a pointwise-equal dictionary
stays pointwise equal. -/
theorem nbEvolve_swap (ipe : Bool) (tr : List (TraceRec ν))
    (d d' : List (ν × Int))
    (hreg : ∀ r ∈ tr, r.i = r.j → r.a_i = r.a_j ∧ r.l_i = r.l_j)
    (h : EquivO d d') :
    EquivO (nbEvolve ipe tr d) (nbEvolve ipe (tr.map swapRec) d') := by
  induction tr generalizing d d' with
  | nil => simpa using h
  | cons r tr ih =>
    rw [List.map_cons, nbEvolve_cons, nbEvolve_cons]
    exact ih _ _ (fun s hs => hreg s (List.mem_cons_of_mem _ hs))
      (nbStep_swap ipe r d d' (hreg r (List.mem_cons_self _ _)) h)

/-- The emitted pair is invariant under swapping a record's endpoints. -/
theorem outOf_swap (r : TraceRec ν) : outOf (swapRec r) = outOf r := by
  simp only [outOf, swapRec]
  rw [Prod.mk.injEq]
  exact ⟨rfl, by ring⟩

/-- The whole algorithm, factored through the instrumented sweep. -/
theorem eventBetweenness_eq_phase2T (events : List (Event ν))
    (nb0 : Option (List (ν × Int))) (ipe : Bool) :
    eventBetweenness events nb0 ipe =
      (phase2T events (phase1 events.reverse).2 []
          (phase1 events.reverse).1).map
        (fun r => (r.1.map outOf, nb0.map (nbEvolve ipe r.1))) := by
  simp only [eventBetweenness]
  rw [phase2_eq_phase2T]
  cases h : phase2T events (phase1 events.reverse).2 []
      (phase1 events.reverse).1 with
  | error e => rfl
  | ok r => rfl

/-- The algorithm never faults when `events_reversed` is derived from
`events`, and emits one pair per event carrying that event's time. -/
theorem eventBetweenness_total (events : List (Event ν))
    (nb0 : Option (List (ν × Int))) (ipe : Bool) :
    ∃ out nbF, eventBetweenness events nb0 ipe = .ok (out, nbF) ∧
      out.length = events.length ∧
      out.map Prod.fst = events.map Prod.fst := by
  have hkeys : ∀ e ∈ events, dGet (phase1 events.reverse).1 e.2.1 ≠ none ∧
      dGet (phase1 events.reverse).1 e.2.2 ≠ none := by
    intro e he
    exact phase1_keys events.reverse [] [] e (List.mem_reverse.mpr he)
  have hlen : events.length ≤ (phase1 events.reverse).2.length := by
    rw [phase1, phase1_stack_length]
    simp
  obtain ⟨r, hr⟩ := phase2T_total events (phase1 events.reverse).2 []
    (phase1 events.reverse).1 hkeys hlen
  obtain ⟨tr, AF, LF, stkF⟩ := r
  have hev := phase2T_events events (phase1 events.reverse).2 []
    (phase1 events.reverse).1 tr AF LF stkF hr
  refine ⟨tr.map outOf, nb0.map (nbEvolve ipe tr), ?_, ?_, ?_⟩
  · rw [eventBetweenness_eq_phase2T, hr]
    rfl
  · rw [List.length_map, ← hev, List.length_map]
  · rw [← hev, List.map_map, List.map_map]
    rfl

theorem get?_append_length {α : Type} (l1 l2 : List α) :
    (l1 ++ l2).get? l1.length = l2.get? 0 := by
  induction l1 with
  | nil => rfl
  | cons x l1 ih => simpa using ih

@[simp] theorem nbEvolve_append (ipe : Bool) (t1 t2 : List (TraceRec ν))
    (d : List (ν × Int)) :
    nbEvolve ipe (t1 ++ t2) d = nbEvolve ipe t2 (nbEvolve ipe t1 d) := by
  simp [nbEvolve, List.foldl_append]

/-- Running `phase2` over an appended sequence is running it over the
first part, then over the second from the resulting state and stack. -/
theorem phase2_append (ipe : Bool) (xs ys : List (Event ν))
    (stack : List (Int × Int)) (A L : List (ν × Int))
    (nb : Option (List (ν × Int))) :
    phase2 ipe (xs ++ ys) stack ⟨A, L, nb⟩ =
      (phase2 ipe xs stack ⟨A, L, nb⟩).bind (fun r =>
        (phase2 ipe ys r.2.2 r.2.1).map (fun s => (r.1 ++ s.1, s.2))) := by
  rw [phase2_eq_phase2T, phase2T_append, phase2_eq_phase2T]
  cases hx : phase2T xs stack A L with
  | error e => rfl
  | ok r =>
    obtain ⟨tr1, A1, L1, stk1⟩ := r
    simp only [Except.bind, Except.map]
    rw [phase2_eq_phase2T]
    cases hy : phase2T ys stk1 A1 L1 with
    | error e => rfl
    | ok s =>
      obtain ⟨tr2, A2, L2, stk2⟩ := s
      simp only [Except.map, List.map_append, nbEvolve_append]
      cases nb with
      | none => rfl
      | some nbd => simp [nbEvolve_append]

/-- C1 (counterexample): for the events `[(0,"A","B"), (1,"B","C")]` the
sequence produced by `eventBetweenness` is NOT `[(0, 2), (1, 2)]` as the
claim states: the code emits `[(0, 1), (1, 1)]`. -/
theorem claim_C1_counterexample :
    eventBetweenness [((0 : Int), "A", "B"), (1, "B", "C")] none false ≠
      .ok ([(0, 2), (1, 2)], none) := by
  intro h
  rw [show eventBetweenness [((0 : Int), "A", "B"), (1, "B", "C")] none false =
      .ok ([(0, 1), (1, 1)], none) from rfl] at h
  injection h with h'
  injection h' with h1 h2
  exact absurd h1 (by decide)

/-- C1 (amended): for the input events `[(0,"A","B"), (1,"B","C")]`
(strictly increasing times, sharing node `"B"`), the sequence produced by
`eventBetweenness` (with `events_reversed` omitted) is `[(0, 1), (1, 1)]`:
the first event's betweenness is 1 and the second event's betweenness
is 1. -/
theorem claim_C1_amended :
    eventBetweenness [((0 : Int), "A", "B"), (1, "B", "C")] none false =
      .ok ([(0, 1), (1, 1)], none) := rfl

/-- C2 (counterexample): for the single event `[(0,"A","B")]` the pair
emitted by `eventBetweenness` is NOT `(0, 1)` as the claim states: the
code emits `(0, 0)`. -/
theorem claim_C2_counterexample :
    eventBetweenness [((0 : Int), "A", "B")] none false ≠
      .ok ([(0, 1)], none) := by
  intro h
  rw [show eventBetweenness [((0 : Int), "A", "B")] none false =
      .ok ([(0, 0)], none) from rfl] at h
  injection h with h'
  injection h' with h1 h2
  exact absurd h1 (by decide)

/-- C2 (amended): for an input consisting of exactly one event `(t,i,j)`
with `i ≠ j`, the single pair emitted by `eventBetweenness` is `(t, 0)`;
concretely, for events `[(0,"A","B")]` the output sequence is
`[(0, 0)]`. -/
theorem claim_C2_amended (t : Int) (i j : ν) (hij : i ≠ j) :
    eventBetweenness [(t, i, j)] none false = .ok ([(t, 0)], none) := by
  have hji : ¬ j = i := fun h => hij h.symm
  simp [eventBetweenness, phase1, phase1Step, phase2, dSetdefault, dGet,
    dSet, hij, hji]

theorem claim_C2_witness :
    ("A" : String) ≠ "B" ∧
    eventBetweenness [((0 : Int), "A", "B")] none false =
      .ok ([(0, 0)], none) :=
  ⟨by decide, claim_C2_amended 0 "A" "B" (by decide)⟩

/-- C10: a single self-loop event `[(t, i, i)]` makes `eventBetweenness`
emit `(t, -2)`: the event's correction pair is subtracted from the same
node's leaving count twice, driving it to −1 on both reads, so the
emitted value is `l_i + l_j = -2`. -/
theorem claim_C10 (t : Int) (i : ν) :
    eventBetweenness [(t, i, i)] none false = .ok ([(t, -2)], none) := by
  simp [eventBetweenness, phase1, phase1Step, phase2, dSetdefault, dGet,
    dSet]

/-- C7: for every finite event sequence (with `events_reversed` omitted,
hence the exact mirror), the output has exactly as many pairs as there
are input events, in the same order, and the first component of the k-th
output pair is the time of the k-th input event (duplicates included:
the statement is about the full sequences). -/
theorem claim_C7 (events : List (Event ν)) (nb0 : Option (List (ν × Int)))
    (ipe : Bool) :
    ∃ out nbF, eventBetweenness events nb0 ipe = .ok (out, nbF) ∧
      out.length = events.length ∧
      out.map Prod.fst = events.map Prod.fst :=
  eventBetweenness_total events nb0 ipe

/-- C9: for every finite event sequence with `events_reversed` omitted —
including unsorted sequences and self-loop events — `eventBetweenness`
raises no fault: it returns `.ok` with exactly one `(time, betweenness)`
pair per input event. -/
theorem claim_C9 (events : List (Event ν)) (nb0 : Option (List (ν × Int)))
    (ipe : Bool) :
    ∃ out nbF, eventBetweenness events nb0 ipe = .ok (out, nbF) ∧
      out.length = events.length := by
  obtain ⟨out, nbF, h1, h2, h3⟩ := eventBetweenness_total events nb0 ipe
  exact ⟨out, nbF, h1, h2⟩

/-- C3: the value emitted for the k-th event `(t,i,j)` of a sorted
sequence with distinct endpoints is
`a_i*l_j + a_j*l_i + a_i + a_j + l_i + l_j`, where `a_i`, `a_j` are the
arrival counts immediately before the event (the state after the forward
sweep has processed the first k events) and `l_i`, `l_j` are the leaving
counts after the event's correction pair `(duI, duJ)` has been popped
and subtracted. -/
theorem claim_C3 (events pre post : List (Event ν)) (t : Int) (i j : ν)
    (nb0 : Option (List (ν × Int))) (ipe : Bool)
    (hsplit : events = pre ++ (t, i, j) :: post)
    (hsort : sortedByTime events = true)
    (hdist : noSelfLoops events)
    (o1 : List (Int × Int)) (st1 : P2State ν) (duI duJ : Int)
    (stk1 : List (Int × Int))
    (hpre : phase2 ipe pre (phase1 events.reverse).2
      ⟨[], (phase1 events.reverse).1, nb0⟩ = .ok (o1, st1, (duI, duJ) :: stk1))
    (out : List (Int × Int)) (nbF : Option (List (ν × Int)))
    (hrun : eventBetweenness events nb0 ipe = .ok (out, nbF)) :
    out.get? pre.length =
      some (t,
        (dGet st1.A i).getD 0 * ((dGet st1.L j).getD 0 - duJ) +
        (dGet st1.A j).getD 0 * ((dGet st1.L i).getD 0 - duI) +
        (dGet st1.A i).getD 0 + (dGet st1.A j).getD 0 +
        ((dGet st1.L i).getD 0 - duI) + ((dGet st1.L j).getD 0 - duJ)) := by
  have hij : i ≠ j := by
    have hmem : ((t, i, j) : Event ν) ∈ events := by
      rw [hsplit]
      exact List.mem_append.mpr (Or.inr (List.mem_cons_self _ _))
    exact hdist (t, i, j) hmem
  have hlen : o1.length = pre.length :=
    phase2_ok_length ipe pre (phase1 events.reverse).2 []
      (phase1 events.reverse).1 nb0 o1 st1 ((duI, duJ) :: stk1) hpre
  simp only [eventBetweenness] at hrun
  cases hph : phase2 ipe events (phase1 events.reverse).2
      ⟨[], (phase1 events.reverse).1, nb0⟩ with
  | error e =>
    rw [hph] at hrun
    exact absurd hrun (by simp)
  | ok r =>
    rw [hph] at hrun
    obtain ⟨outs, stF, stkR⟩ := r
    injection hrun with hrun'
    injection hrun' with hout hnb
    subst hout
    rw [hsplit] at hpre hph
    rw [phase2_append, hpre] at hph
    simp only [Except.bind] at hph
    obtain ⟨A1s, L1s, nb1s⟩ := st1
    rcases q1 : dSetdefault A1s i 0 with ⟨a_i, Aa⟩
    rcases q2 : dSetdefault Aa j 0 with ⟨a_j, Ab⟩
    obtain ⟨hai, hza⟩ := getDz_dSetdefault_pair q1
    obtain ⟨haj', hzb⟩ := getDz_dSetdefault_pair q2
    have haj : a_j = (dGet A1s j).getD 0 := by rw [haj', hza]
    cases qLi : dGet L1s i with
    | none =>
      simp only [phase2, q1, q2, qLi] at hph
      exact absurd hph (by simp [Except.map])
    | some li0 =>
      cases qLj : dGet (dSet L1s i (li0 - duI)) j with
      | none =>
        simp only [phase2, q1, q2, qLi, qLj] at hph
        exact absurd hph (by simp [Except.map])
      | some lj0 =>
        cases ql2i : dGet (dSet (dSet L1s i (li0 - duI)) j (lj0 - duJ)) i with
        | none =>
          cases ql2j :
              dGet (dSet (dSet L1s i (li0 - duI)) j (lj0 - duJ)) j <;>
            · simp only [phase2, q1, q2, qLi, qLj, ql2i, ql2j] at hph
              exact absurd hph (by simp [Except.map])
        | some l_i =>
          cases ql2j :
              dGet (dSet (dSet L1s i (li0 - duI)) j (lj0 - duJ)) j with
          | none =>
            simp only [phase2, q1, q2, qLi, qLj, ql2i, ql2j] at hph
            exact absurd hph (by simp [Except.map])
          | some l_j =>
            simp only [phase2, q1, q2, qLi, qLj, ql2i, ql2j] at hph
            cases qrec : phase2 ipe post stk1 _ with
            | error e =>
              rw [qrec] at hph
              exact absurd hph (by simp [Except.map])
            | ok r2 =>
              rw [qrec] at hph
              obtain ⟨o2, st2, stk2⟩ := r2
              simp only [Except.map] at hph
              injection hph with hph'
              have houts := congrArg Prod.fst hph'
              simp only at houts
              rw [← houts, ← hlen, get?_append_length]
              have hli : l_i = li0 - duI := by
                rw [dGet_dSet, if_neg (fun h : j = i => hij h.symm),
                  dGet_dSet_self] at ql2i
                exact (Option.some.inj ql2i).symm
              have hlj : l_j = lj0 - duJ := by
                rw [dGet_dSet_self] at ql2j
                exact (Option.some.inj ql2j).symm
              have hgi : (dGet L1s i).getD 0 = li0 := by rw [qLi]; rfl
              have hgj : (dGet L1s j).getD 0 = lj0 := by
                rw [dGet_dSet, if_neg hij] at qLj
                rw [qLj]
                rfl
              simp only [List.get?_cons_zero, hgi, hgj, Option.getD_some,
                ← hai, ← haj,
                show lj0 - duJ = l_j from hlj.symm,
                show li0 - duI = l_i from hli.symm]

theorem claim_C3_witness :
    (([((0 : Int), 1), (1, 1)] : List (Int × Int)).get? 1 = some (1, 1)) :=
  claim_C3 [((0 : Int), "A", "B"), (1, "B", "C")] [((0 : Int), "A", "B")] []
    1 "B" "C" none false rfl rfl (by decide) [(0, 1)]
    ⟨[("A", 1), ("B", 1)], [("B", 1), ("C", 1), ("A", 0)], none⟩ 1 1 []
    (by decide) [(0, 1), (1, 1)] none (by decide)

/-- C4 (counterexample): for the chain `[(0,"A","B"), (1,"B","C")]` with
an empty node-betweenness dictionary and `include_path_ends = False`,
the final node-betweenness values sum to 1, while the sum over all
events of the `a_i*l_j + a_j*l_i` through-path terms is 0 — so the two
quantities are not equal as the claim states. -/
theorem claim_C4_counterexample :
    eventBetweenness [((0 : Int), "A", "B"), (1, "B", "C")] (some []) false =
      .ok ([(0, 1), (1, 1)], some [("A", 0), ("B", 1), ("C", 0)]) ∧
    phase2T [((0 : Int), "A", "B"), (1, "B", "C")]
      (phase1 [((0 : Int), "A", "B"), (1, "B", "C")].reverse).2 []
      (phase1 [((0 : Int), "A", "B"), (1, "B", "C")].reverse).1 =
      .ok ([⟨0, "A", "B", 0, 0, 0, 1⟩, ⟨1, "B", "C", 1, 0, 0, 0⟩],
        [("A", 1), ("B", 2), ("C", 2)], [("B", 0), ("C", 0), ("A", 0)], []) ∧
    sumValues [("A", (0 : Int)), ("B", 1), ("C", 0)] = 1 ∧
    throughSum [(⟨0, "A", "B", 0, 0, 0, 1⟩ : TraceRec String),
      ⟨1, "B", "C", 1, 0, 0, 0⟩] = 0 ∧
    sumValues [("A", (0 : Int)), ("B", 1), ("C", 0)] ≠
      throughSum [(⟨0, "A", "B", 0, 0, 0, 1⟩ : TraceRec String),
        ⟨1, "B", "C", 1, 0, 0, 0⟩] :=
  ⟨by decide, by decide, by decide, by decide, by decide⟩

/-- C4 (amended): for every sorted event sequence with distinct
endpoints, running `eventBetweenness` with an empty node-betweenness
dictionary and `include_path_ends = False` yields a final mapping whose
values sum to the sum, over all events, of
`a_i*l_j + a_j*l_i + l_i + l_j` (through-path terms plus the leaving
counts) computed while processing that event. -/
theorem claim_C4_amended (events : List (Event ν))
    (hsort : sortedByTime events = true) (hdist : noSelfLoops events)
    (tr : List (TraceRec ν)) (AF LF : List (ν × Int)) (stkF : List (Int × Int))
    (hT : phase2T events (phase1 events.reverse).2 []
      (phase1 events.reverse).1 = .ok (tr, AF, LF, stkF))
    (out : List (Int × Int)) (nbF : List (ν × Int))
    (hrun : eventBetweenness events (some []) false = .ok (out, some nbF)) :
    sumValues nbF = throughEndsSum tr := by
  rw [eventBetweenness_eq_phase2T, hT] at hrun
  simp only [Except.map, Option.map] at hrun
  injection hrun with h'
  injection h' with h1 h2
  injection h2 with h3
  have htrdist : ∀ r ∈ tr, r.i ≠ r.j := by
    intro r hr
    have hev := phase2T_events events (phase1 events.reverse).2 []
      (phase1 events.reverse).1 tr AF LF stkF hT
    have hmem : ((r.t, r.i, r.j) : Event ν) ∈ events := by
      rw [← hev]
      exact List.mem_map_of_mem _ hr
    exact hdist _ hmem
  rw [← h3, sumValues_nbEvolve_false tr [] htrdist]
  simp

theorem claim_C4_amended_witness :
    sortedByTime [((0 : Int), "A", "B"), (1, "B", "C")] = true ∧
    noSelfLoops [((0 : Int), "A", "B"), (1, "B", "C")] ∧
    sumValues [("A", (0 : Int)), ("B", 1), ("C", 0)] =
      throughEndsSum [(⟨0, "A", "B", 0, 0, 0, 1⟩ : TraceRec String),
        ⟨1, "B", "C", 1, 0, 0, 0⟩] :=
  ⟨rfl, by decide,
    claim_C4_amended [((0 : Int), "A", "B"), (1, "B", "C")] rfl (by decide)
      [⟨0, "A", "B", 0, 0, 0, 1⟩, ⟨1, "B", "C", 1, 0, 0, 0⟩]
      [("A", 1), ("B", 2), ("C", 2)] [("B", 0), ("C", 0), ("A", 0)] []
      (by decide) [(0, 1), (1, 1)] [("A", 0), ("B", 1), ("C", 0)] (by decide)⟩

/-- C6: for every event sequence sorted non-decreasingly by time whose
events each have two distinct endpoints (with `events_reversed` omitted
or an exact mirror), every emitted betweenness value is non-negative,
and every value stored in the supplied (initially empty) node-betweenness
dictionary is non-negative at all times — after each prefix of the
forward sweep. -/
theorem claim_C6 (events : List (Event ν)) (ipe : Bool)
    (hsort : sortedByTime events = true) (hdist : noSelfLoops events) :
    ∃ out nbF, eventBetweenness events (some []) ipe = .ok (out, some nbF) ∧
      (∀ p ∈ out, 0 ≤ p.2) ∧ dNonneg nbF ∧
      ∀ tr AF LF stkF,
        phase2T events (phase1 events.reverse).2 []
          (phase1 events.reverse).1 = .ok (tr, AF, LF, stkF) →
        ∀ n, dNonneg (nbEvolve ipe (tr.take n) []) := by
  have hnil : dNonneg ([] : List (ν × Int)) := by
    intro p hp
    cases hp
  have heq : EquivZ (phase1 events.reverse).1
      (events.reverse.foldl phase1Step ([], [])).1 := fun k => rfl
  have hkeys : ∀ e ∈ events, dGet (phase1 events.reverse).1 e.2.1 ≠ none ∧
      dGet (phase1 events.reverse).1 e.2.2 ≠ none :=
    fun e he => phase1_keys events.reverse [] [] e (List.mem_reverse.mpr he)
  have hLv : dNonneg (phase1 events.reverse).1 :=
    phase1_nonneg events.reverse [] [] hnil
  obtain ⟨tr, AF, LF, hrunT, hAF, hLF, hEq, hMono, htrnn⟩ :=
    phase2T_restore events [] [] [] (phase1 events.reverse).1 hdist heq hkeys
      hLv hnil hnil
  have hrunT' : phase2T events (phase1 events.reverse).2 []
      (phase1 events.reverse).1 = .ok (tr, AF, LF, []) := hrunT
  refine ⟨tr.map outOf, nbEvolve ipe tr [], ?_, ?_, ?_, ?_⟩
  · rw [eventBetweenness_eq_phase2T, hrunT']
    rfl
  · intro p hp
    obtain ⟨r, hr, rfl⟩ := List.mem_map.mp hp
    obtain ⟨h1, h2, h3, h4⟩ := htrnn r hr
    have hm1 := mul_nonneg h1 h4
    have hm2 := mul_nonneg h2 h3
    show 0 ≤ r.a_i * r.l_j + r.a_j * r.l_i + r.a_i + r.a_j + r.l_i + r.l_j
    linarith
  · exact dNonneg_nbEvolve ipe tr [] htrnn hnil
  · intro tr' AF' LF' stkF' hT' n
    have htr : tr' = tr := by
      rw [hrunT'] at hT'
      injection hT' with h'
      exact (congrArg (fun q => q.1) h').symm
    subst htr
    exact dNonneg_nbEvolve ipe (tr'.take n) []
      (fun r hr => htrnn r (List.take_subset n tr' hr)) hnil

theorem claim_C6_witness :
    sortedByTime [((0 : Int), "A", "B"), (1, "B", "C")] = true ∧
    noSelfLoops [((0 : Int), "A", "B"), (1, "B", "C")] ∧
    ∃ out nbF,
      eventBetweenness [((0 : Int), "A", "B"), (1, "B", "C")] (some []) true =
        .ok (out, some nbF) ∧
      (∀ p ∈ out, 0 ≤ p.2) ∧ dNonneg nbF ∧
      ∀ tr AF LF stkF,
        phase2T [((0 : Int), "A", "B"), (1, "B", "C")]
          (phase1 [((0 : Int), "A", "B"), (1, "B", "C")].reverse).2 []
          (phase1 [((0 : Int), "A", "B"), (1, "B", "C")].reverse).1 =
          .ok (tr, AF, LF, stkF) →
        ∀ n, dNonneg (nbEvolve true (tr.take n) []) :=
  ⟨rfl, by decide,
    claim_C6 [((0 : Int), "A", "B"), (1, "B", "C")] true rfl (by decide)⟩

/-- C8: for every sorted event sequence with distinct endpoints, the
final node-betweenness mapping with `include_path_ends = True` has the
same key set as the one with `include_path_ends = False`, and is
pointwise greater than or equal to it. -/
theorem claim_C8 (events : List (Event ν))
    (hsort : sortedByTime events = true) (hdist : noSelfLoops events) :
    ∃ outT nbT outF nbF,
      eventBetweenness events (some []) true = .ok (outT, some nbT) ∧
      eventBetweenness events (some []) false = .ok (outF, some nbF) ∧
      dKeys nbT = dKeys nbF ∧
      ∀ k, (dGet nbF k).getD 0 ≤ (dGet nbT k).getD 0 := by
  have hnil : dNonneg ([] : List (ν × Int)) := by
    intro p hp
    cases hp
  have heq : EquivZ (phase1 events.reverse).1
      (events.reverse.foldl phase1Step ([], [])).1 := fun k => rfl
  have hkeys : ∀ e ∈ events, dGet (phase1 events.reverse).1 e.2.1 ≠ none ∧
      dGet (phase1 events.reverse).1 e.2.2 ≠ none :=
    fun e he => phase1_keys events.reverse [] [] e (List.mem_reverse.mpr he)
  have hLv : dNonneg (phase1 events.reverse).1 :=
    phase1_nonneg events.reverse [] [] hnil
  obtain ⟨tr, AF, LF, hrunT, hAF, hLF, hEq, hMono, htrnn⟩ :=
    phase2T_restore events [] [] [] (phase1 events.reverse).1 hdist heq hkeys
      hLv hnil hnil
  have hrunT' : phase2T events (phase1 events.reverse).2 []
      (phase1 events.reverse).1 = .ok (tr, AF, LF, []) := hrunT
  have htrdist : ∀ r ∈ tr, r.i ≠ r.j := by
    intro r hr
    have hev := phase2T_events events (phase1 events.reverse).2 []
      (phase1 events.reverse).1 tr AF LF [] hrunT'
    have hmem : ((r.t, r.i, r.j) : Event ν) ∈ events := by
      rw [← hev]
      exact List.mem_map_of_mem _ hr
    exact hdist _ hmem
  obtain ⟨hk, hle⟩ := nbEvolve_le tr htrnn htrdist [] [] rfl
    (fun k => le_refl _)
  refine ⟨tr.map outOf, nbEvolve true tr [], tr.map outOf,
    nbEvolve false tr [], ?_, ?_, hk, hle⟩
  · rw [eventBetweenness_eq_phase2T, hrunT']
    rfl
  · rw [eventBetweenness_eq_phase2T, hrunT']
    rfl

theorem claim_C8_witness :
    sortedByTime [((0 : Int), "A", "B"), (1, "B", "C")] = true ∧
    noSelfLoops [((0 : Int), "A", "B"), (1, "B", "C")] ∧
    ∃ outT nbT outF nbF,
      eventBetweenness [((0 : Int), "A", "B"), (1, "B", "C")] (some []) true =
        .ok (outT, some nbT) ∧
      eventBetweenness [((0 : Int), "A", "B"), (1, "B", "C")] (some []) false =
        .ok (outF, some nbF) ∧
      dKeys nbT = dKeys nbF ∧
      ∀ k, (dGet nbF k).getD 0 ≤ (dGet nbT k).getD 0 :=
  ⟨rfl, by decide,
    claim_C8 [((0 : Int), "A", "B"), (1, "B", "C")] rfl (by decide)⟩

/-- C5: replacing every event `(t,i,j)` by `(t,j,i)` leaves the emitted
`(time, betweenness)` sequence unchanged, and when a node-betweenness
dictionary is supplied (for either value of `include_path_ends`), leaves
every node's final node-betweenness total unchanged. -/
theorem claim_C5 (events : List (Event ν)) (ipe : Bool)
    (nb0 : Option (List (ν × Int))) :
    ∃ out nbF nbF',
      eventBetweenness events nb0 ipe = .ok (out, nbF) ∧
      eventBetweenness (events.map swapEvent) nb0 ipe = .ok (out, nbF') ∧
      ∀ d0, nb0 = some d0 → ∃ dA dB, nbF = some dA ∧ nbF' = some dB ∧
        ∀ k, dGet dB k = dGet dA k := by
  -- the original run succeeds
  have hkeys : ∀ e ∈ events, dGet (phase1 events.reverse).1 e.2.1 ≠ none ∧
      dGet (phase1 events.reverse).1 e.2.2 ≠ none :=
    fun e he => phase1_keys events.reverse [] [] e (List.mem_reverse.mpr he)
  have hlen : events.length ≤ (phase1 events.reverse).2.length := by
    rw [phase1, phase1_stack_length]
    simp
  obtain ⟨r, hr⟩ := phase2T_total events (phase1 events.reverse).2 []
    (phase1 events.reverse).1 hkeys hlen
  obtain ⟨tr, AF, LF, stkF⟩ := r
  -- the reverse sweeps of the two runs are pointwise equal
  obtain ⟨hP1L, hP1stk⟩ := phase1_swap events.reverse [] [] [] []
    (fun k => rfl) rfl
  have hP1L2 : EquivO (phase1 events.reverse).1
      (phase1 (events.reverse.map swapEvent)).1 := hP1L
  have hP1stk2 : (phase1 (events.reverse.map swapEvent)).2 =
      (phase1 events.reverse).2.map swapPair := hP1stk
  have hrevmap : (events.map swapEvent).reverse = events.reverse.map swapEvent :=
    (List.map_reverse swapEvent events).symm
  -- the swapped forward sweep
  obtain ⟨AF', LF', hr', hEA, hEL⟩ := phase2T_swap events
    (phase1 events.reverse).2 [] [] (phase1 events.reverse).1
    (phase1 (events.reverse.map swapEvent)).1
    (fun k => rfl) hP1L2 tr AF LF stkF hr
  rw [← hP1stk2] at hr'
  have hreg := phase2T_reg events (phase1 events.reverse).2 []
    (phase1 events.reverse).1 tr AF LF stkF hr
  have houts : (tr.map swapRec).map outOf = tr.map outOf := by
    rw [List.map_map]
    exact List.map_congr_left (fun r _ => outOf_swap r)
  refine ⟨tr.map outOf, nb0.map (nbEvolve ipe tr),
    nb0.map (nbEvolve ipe (tr.map swapRec)), ?_, ?_, ?_⟩
  · rw [eventBetweenness_eq_phase2T, hr]
    rfl
  · rw [eventBetweenness_eq_phase2T]
    rw [show phase1 (events.map swapEvent).reverse =
        phase1 (events.reverse.map swapEvent) from by rw [hrevmap]]
    rw [hr']
    simp only [Except.map, houts]
  · intro d0 hd0
    subst hd0
    refine ⟨nbEvolve ipe tr d0, nbEvolve ipe (tr.map swapRec) d0, rfl, rfl, ?_⟩
    intro k
    exact (nbEvolve_swap ipe tr d0 d0 hreg (fun k' => rfl) k).symm

theorem claim_C5_witness :
    ∃ out nbF nbF',
      eventBetweenness [((0 : Int), "A", "B"), (1, "B", "C")] (some []) false =
        .ok (out, nbF) ∧
      eventBetweenness ([((0 : Int), "A", "B"), (1, "B", "C")].map swapEvent)
        (some []) false = .ok (out, nbF') ∧
      ∀ d0, (some ([] : List (String × Int))) = some d0 →
        ∃ dA dB, nbF = some dA ∧ nbF' = some dB ∧
          ∀ k, dGet dB k = dGet dA k :=
  claim_C5 [((0 : Int), "A", "B"), (1, "B", "C")] false (some [])

end NetPython
